import Mathlib

/-!
Verification of realtime-whisper: the sliding-window cutter, the ring queue and
fuzzy alignment

A shallow embedding of `utility/windower.go`, `utility/queue.go`,
`predict/window.go` and of `fuzzySearch` in `predict/emitter.go`, followed by
the properties proved of them.

Conventions. Go slices are lists; a channel is the list of the values sent on
it, in order. Go `int` values that are never negative (lengths, `remaining`,
`head`, `len`) are natural numbers; a quantity that can be negative is an `Int`.
Integers are unbounded: no computation modelled here comes near the 64-bit
range, except the initial value `math.MaxInt` of `minDistance`, which is kept.
A Go panic is `none`.
-/

set_option autoImplicit false

/-! ## Definitions -/

namespace Utility

/-- The Go builtin `copy(dst, src)`: the first `min (len dst) (len src)` cells of
`dst` are overwritten by the corresponding cells of `src`; the result is the
updated `dst` together with the number of cells copied. -/
def goCopy {α : Type} (dst src : List α) : List α × Nat :=
  let n := min dst.length src.length
  (src.take n ++ dst.drop n, n)

/-- The `Windower[T]` struct of windower.go. The zero value of `T` is `default`. -/
structure Windower (α : Type) where
  step : Nat
  buf : List α
deriving DecidableEq, Repr

/-- Embedding of `NewWindower(width, step)`; the Go panic on a non-positive argument is `none`. -/
def NewWindower {α : Type} [Inhabited α] (width step : Int) : Option (Windower α) :=
  if width ≤ 0 ∨ step ≤ 0 then none
  else some { step := step.toNat, buf := List.replicate width.toNat default }

/-- Mutable state shared by the iterations of `process` inside `Windower.Do`:
the buffer `b.buf`, the local `remaining`, and the frames sent on `outCh` so far. -/
structure ProcState (α : Type) where
  buf : List α
  remaining : Nat
  out : List (List α)
deriving DecidableEq, Repr

/-- Lines 39-52 of windower.go: copy the head of the chunk into the tail of the
buffer, and when `remaining` reaches 0 send a copy of the buffer, reset
`remaining` to the step and shift the buffer left. Returns the new state and the
rest of the chunk. -/
def fillAndEmit {α : Type} (step : Nat) (st : ProcState α) (chunk : List α) :
    ProcState α × List α :=
  let off := st.buf.length - st.remaining
  let r := goCopy (st.buf.drop off) chunk
  let buf := st.buf.take off ++ r.1
  let copied := r.2
  let remaining := st.remaining - copied
  let chunk := chunk.drop copied
  if remaining = 0 then
    let out := st.out ++ [buf]
    let remaining := step
    let buf := if buf.length > remaining then (goCopy buf (buf.drop remaining)).1 else buf
    (⟨buf, remaining, out⟩, chunk)
  else
    (⟨buf, remaining, st.out⟩, chunk)

/-- The loop `for len(chunk) > 0 { ... }` of the closure `process`, lines 25-53.
Each iteration costs one unit of fuel; `none` means the fuel ran out before the
chunk was consumed. -/
def processLoop {α : Type} (step : Nat) : Nat → ProcState α → List α → Option (ProcState α)
  | _, st, [] => some st
  | 0, _, _ :: _ => none
  | fuel + 1, st, c :: cs =>
    let chunk := c :: cs
    let skip : Int := (st.remaining : Int) - (st.buf.length : Int)
    if skip ≥ (chunk.length : Int) then
      processLoop step fuel { st with remaining := st.remaining - chunk.length } []
    else
      let st1 : ProcState α :=
        if skip > 0 then { st with remaining := st.remaining - skip.toNat } else st
      let chunk1 := if skip > 0 then chunk.drop skip.toNat else chunk
      let r := fillAndEmit step st1 chunk1
      processLoop step fuel r.1 r.2

/-- The closure `process` of `Windower.Do`, run on one chunk. Every iteration
consumes at least one sample, so `len(chunk)` iterations are enough. -/
def Windower.process {α : Type} (b : Windower α) (st : ProcState α) (chunk : List α) :
    Option (ProcState α) :=
  processLoop b.step chunk.length st chunk

/-- Embedding of `Windower.Do`: `inCh` is the list of chunks received before the channel is
closed; the result is the windower after the run (its buffer is mutated in
place) and the list of frames sent on `outCh`. -/
def Windower.Do {α : Type} [Inhabited α] (b : Windower α) (inCh : List (List α)) :
    Option (Windower α × List (List α)) := do
  let st ← inCh.foldlM b.process ⟨b.buf, b.step, []⟩
  let st ← b.process st (List.replicate b.buf.length default)
  some ({ b with buf := st.buf }, st.out)

/-- Frames cut from a padded stream `z`: frame `i` is the `W` samples of `z`
starting at position `(i + 1) * S`. -/
def framesOf {α : Type} (W S : Nat) (z : List α) (k : Nat) : List (List α) :=
  (List.range k).map (fun i => (z.drop ((i + 1) * S)).take W)

/-- The stream read by the frames: `x` followed by `W` zero samples, and the
zero sample at every negative index. -/
def paddedAt {α : Type} [Inhabited α] (x : List α) (W : Nat) (i : Int) : Option α :=
  if i < 0 then some default else (x ++ List.replicate W default)[i.toNat]?

/-- Invariant of the loop of `process` after `m` samples of the padded stream
`z` (whose first `W` cells stand for the buffer before the run) were consumed. -/
structure ProcInv {α : Type} (W S : Nat) (z : List α) (m : Nat) (st : ProcState α) : Prop where
  hlen : st.buf.length = W
  hpos : 0 < st.remaining
  hk : ∃ k, st.out = framesOf W S z k ∧ (k + 1) * S = m + st.remaining ∧ k * S ≤ m ∧
    st.buf.take (W - st.remaining) = (z.drop ((k + 1) * S)).take (W - st.remaining)

end Utility

namespace Utility

/-- The `Queue[T]` struct of queue.go. `head` and `len` are never negative
for a capacity of at least 1; for capacity 0 Go starts with `head = -1`, here
with `head = 0`, and every operation that reads `head` panics in both. -/
structure Queue (α : Type) where
  buf : List α
  len : Nat
  head : Nat
deriving DecidableEq, Repr

/-- Embedding of `NewQueue(cap)`: a buffer of `cap` zero values, `head = cap - 1`. -/
def NewQueue {α : Type} [Inhabited α] (cap : Nat) : Queue α :=
  { buf := List.replicate cap default, len := 0, head := cap - 1 }

/-- Embedding of `Queue.Cap`. -/
def Queue.Cap {α : Type} (q : Queue α) : Nat := q.buf.length

/-- Embedding of `Queue.Len`. -/
def Queue.Len {α : Type} (q : Queue α) : Nat := q.len

/-- Embedding of `Queue.Push`. The remainder by a capacity of 0 panics. -/
def Queue.Push {α : Type} (q : Queue α) (el : α) : Option (Queue α) :=
  if q.Cap = 0 then none
  else
    let head := (q.head + 1) % q.Cap
    let len := if q.Len < q.Cap then q.len + 1 else q.len
    some { buf := q.buf.set head el, len := len, head := head }

/-- Embedding of `Queue.Do(fn)`: the arguments `fn` is called on, in call order. An index
out of range panics. -/
def Queue.Do {α : Type} (q : Queue α) : Option (List α) :=
  (List.range q.Len).mapM (fun i => q.buf[(i + q.head) % q.Len]?)

/-- Embedding of `Queue.Peek`; reading a cell out of range panics. -/
def Queue.Peek {α : Type} (q : Queue α) : Option α := q.buf[q.head]?

/-- Embedding of `Queue.Full`. -/
def Queue.Full {α : Type} (q : Queue α) : Bool := decide (q.Len = q.Cap)

/-- A sequence of pushes, first element of the list first. -/
def Queue.pushAll {α : Type} (q : Queue α) (xs : List α) : Option (Queue α) :=
  xs.foldlM Queue.Push q

end Utility

namespace Predict

/-- Modelled from the spec: `gomarkov.Chain` is a third-party type whose code is
not part of the repository. A chain of fixed order is trained by adding token
sequences to it; it is represented here by its order and the sequences added so
far, in order, which determine its transition counts. -/
structure Chain where
  order : Nat
  added : List (List String)
deriving DecidableEq, Repr

/-- Modelled from the spec: `gomarkov.NewChain(order)`, a chain trained on nothing. -/
def NewChain (order : Nat) : Chain := { order := order, added := [] }

/-- Modelled from the spec: `Chain.Add(tokens)` trains the chain on one more sequence. -/
def Chain.Add (c : Chain) (tokens : List String) : Chain :=
  { c with added := c.added ++ [tokens] }

/-- The `Window` struct of window.go; `State` is the chain the pointer refers to. -/
structure Window where
  Tokens : List String
  State : Chain
deriving DecidableEq, Repr

/-- The `WindowQ` struct of window.go. The queue holds `*Window` pointers: an
address is an index into `heap`, the list of the windows allocated so far, and
the nil pointer is `none`. -/
structure WindowQ where
  q : Utility.Queue (Option Nat)
  ngram : Nat
  heap : List Window
deriving DecidableEq, Repr

/-- Embedding of `NewWindowQ(depth, ngram)`. -/
def NewWindowQ (depth ngram : Nat) : WindowQ :=
  { q := Utility.NewQueue depth, ngram := ngram, heap := [] }

/-- The callback of the training step, `window.State.Add(tokens)`, applied to
the window a pointer refers to; a nil pointer panics. -/
def trainAt (tokens : List String) (heap : List Window) (p : Option Nat) :
    Option (List Window) :=
  match p with
  | none => none
  | some a =>
    match heap[a]? with
    | none => none
    | some w => some (heap.set a { w with State := w.State.Add tokens })

/-- Embedding of `WindowQ.PushWindow`: allocate the new window, push its address, then call
the training callback on every pointer `Queue.Do` visits. -/
def WindowQ.PushWindow (w : WindowQ) (tokens : List String) : Option WindowQ := do
  let heap := w.heap ++ [{ Tokens := tokens, State := NewChain w.ngram }]
  let q ← w.q.Push (some w.heap.length)
  let visited ← q.Do
  let heap ← visited.foldlM (trainAt tokens) heap
  some { w with q := q, heap := heap }

/-- A sequence of calls of `PushWindow`, first transcript of the list first. -/
def WindowQ.pushAll (w : WindowQ) (ts : List (List String)) : Option WindowQ :=
  ts.foldlM WindowQ.PushWindow w

end Predict

namespace Utility

/-- State of a queue of capacity `C` after the pushes `xs` onto a new queue:
the element pushed at time `i` sits in cell `i mod C` until it is overwritten. -/
structure QInv {α : Type} (C : Nat) (xs : List α) (q : Queue α) : Prop where
  hcap : q.buf.length = C
  hlen : q.len = min xs.length C
  hhead : q.head = (xs.length + C - 1) % C
  hcell : ∀ i : Nat, i < xs.length → xs.length ≤ i + C → q.buf[i % C]? = xs[i]?

end Utility

namespace Predict

/-- State of a window queue of depth `D` and order `N` after the transcripts
`ts`: the window allocated by push `i` has address `i`, the queue holds the
addresses in push order, and window `i` was trained on transcript `i` and on the
later ones that arrived while it was resident. -/
structure WQInv (D N : Nat) (ts : List (List String)) (wq : WindowQ) : Prop where
  hngram : wq.ngram = N
  hq : Utility.QInv D ((List.range ts.length).map some) wq.q
  hheap : wq.heap.length = ts.length
  hwin : ∀ (i : Nat) (t : List String), ts[i]? = some t →
    wq.heap[i]? = some ⟨t, ⟨N, (ts.drop i).take D⟩⟩

end Predict

namespace Predict

/-- The constant `uncertaintyPenalty` of emitter.go. -/
def uncertaintyPenalty : Int := 5

/-- The constant `math.MaxInt` (64-bit `int`). -/
def maxInt : Int := 2 ^ 63 - 1

/-- Modelled from the spec: `fuzzy.LevenshteinDistance` is a third-party
function whose code is not part of the repository; the spec defines it as the
standard edit distance between two strings, character by character. -/
def LevenshteinDistance (s t : String) : Int :=
  (levenshtein Levenshtein.defaultCost s.toList t.toList : Nat)

/-- The inner loop of `fuzzySearch` (lines 148-162): the distance accumulated
over `j = 0 .. len(term) - 1` at offset `i`. An index out of range panics. -/
def offsetDistance (term tokens : List String) (i : Int) : Option Int :=
  (List.range term.length).foldlM (fun (distance : Int) (j : Nat) =>
    let k : Int := i + j
    if k < 0 then some (distance + uncertaintyPenalty)
    else
      match term[j]?, tokens[k.toNat]? with
      | some a, some b => some (distance + LevenshteinDistance a b)
      | _, _ => none) 0

/-- One iteration of the outer loop of `fuzzySearch` at offset `i`, on the
 pair `(idx, minDistance)`. -/
def searchStep (term tokens : List String) (st : Int × Int) (i : Int) : Option (Int × Int) :=
  match offsetDistance term tokens i with
  | none => none
  | some distance => if distance < st.2 then some (i, distance) else some st

/-- Embedding of `fuzzySearch(term, tokens)`. The outer loop runs `i` from `-len(term)` up to
`len(tokens) - len(term) - 1`, that is `len(tokens)` iterations. -/
def fuzzySearch (term tokens : List String) : Option Int :=
  ((List.range tokens.length).foldlM
    (fun (st : Int × Int) (t : Nat) => searchStep term tokens st (-(term.length : Int) + t))
    (0, maxInt)).map Prod.fst

/-- The distance score of the spec at offset `i`: the sum over `j < len(term)`
of the uncertainty penalty when `i + j < 0`, and of the Levenshtein distance of
`term[j]` and `tokens[i + j]` otherwise. -/
def specDistance (term tokens : List String) (i : Int) : Int :=
  ((List.range term.length).map (fun (j : Nat) =>
    if i + j < 0 then uncertaintyPenalty
    else LevenshteinDistance (term.getD j "") (tokens.getD (i + j).toNat ""))).sum

end Predict

namespace Predict

/-- The arithmetic and the library the emitter runs on. The `float32`
operations of emitter.go (`F` with conversion from `int`, the four operations,
comparison and truncation to `int`, and the constant `progressTarget`), the
sentinels `StartToken` and `EndToken` of gomarkov and the function
`GenerateDeterministic` of a chain with the repository's `ZeroRng` are
parameters of the embedding; `generate` returns `none` for a Go error. -/
structure Env where
  F : Type
  ofInt : Int → F
  add : F → F → F
  sub : F → F → F
  mul : F → F → F
  div : F → F → F
  lt : F → F → Bool
  toInt : F → Int
  progressTarget : F
  StartToken : String
  EndToken : String
  generate : Chain → List String → Option String

/-- Embedding of `WindowQ.PredictNext`: the chain of the window `Peek` points
to is asked for the next token. The outer `none` is a panic (nil pointer),
the inner `none` an error returned by the chain. -/
def WindowQ.PredictNext (env : Env) (w : WindowQ) (tokens : List String) :
    Option (Option String) :=
  match w.q.Peek with
  | some (some a) =>
    match w.heap[a]? with
    | some win => some (env.generate win.State tokens)
    | none => none
  | _ => none

/-- The class `\s` of Go regular expressions: tab, newline, form feed,
carriage return and space. -/
def isRegexSpace (c : Char) : Bool :=
  c = '\t' || c = '\n' || c = Char.ofNat 12 || c = '\r' || c = ' '

/-- White space as `strings.TrimSpace` sees it (`unicode.IsSpace`). -/
def isUnicodeSpace (c : Char) : Bool :=
  isRegexSpace c || c = Char.ofNat 11 || c = Char.ofNat 0x85 || c = Char.ofNat 0xA0 ||
  c = Char.ofNat 0x1680 || (0x2000 ≤ c.toNat && c.toNat ≤ 0x200A) ||
  c = Char.ofNat 0x2028 || c = Char.ofNat 0x2029 || c = Char.ofNat 0x202F ||
  c = Char.ofNat 0x205F || c = Char.ofNat 0x3000

/-- The class `[A-Za-z0-9]`. -/
def isAlnum (c : Char) : Bool :=
  ('A' ≤ c && c ≤ 'Z') || ('a' ≤ c && c ≤ 'z') || ('0' ≤ c && c ≤ '9')

/-- One line under `withinBracketsPattern.ReplaceAllString(s, "")`: the
pattern `\[.*\]` is greedy and `.` does not match a newline, so the match in a
line runs from its first `[` to its last `]`, when the latter comes later. -/
def removeBracketsLine (l : List Char) : List Char :=
  let p := l.findIdx (fun c => c = '[')
  let r := l.reverse.findIdx (fun c => c = ']')
  if p < l.length ∧ r < l.length ∧ p < l.length - 1 - r then l.take p ++ l.drop (l.length - r)
  else l

/-- The replacement of `spacesPattern` (`\s+`) by one space: of every run of
`\s` characters only the last is kept, as a space. -/
def collapseSpaces : List Char → List Char
  | [] => []
  | c :: cs =>
    if isRegexSpace c then
      match cs with
      | d :: _ => if isRegexSpace d then collapseSpaces cs else ' ' :: collapseSpaces cs
      | [] => [' ']
    else c :: collapseSpaces cs

/-- Embedding of `sanitize`: remove bracketed text, trim white space, remove
`[^A-Za-z0-9\s]+`, lower the case (only ASCII letters are left at that point),
collapse white space. -/
def sanitize (s : String) : String :=
  let replaced := List.intercalate ['\n'] ((s.toList.splitOn '\n').map removeBracketsLine)
  let trimmed := ((replaced.dropWhile isUnicodeSpace).reverse.dropWhile isUnicodeSpace).reverse
  let alphanumeric := trimmed.filter (fun c => isAlnum c || isRegexSpace c)
  let lowered := alphanumeric.map Char.toLower
  String.mk (collapseSpaces lowered)

/-- Embedding of `tokenize`: `strings.Split(s, " ")`. -/
def tokenize (s : String) : List String :=
  (s.toList.splitOn ' ').map String.mk

/-- Embedding of `padLeft`. -/
def padLeft (toPad : List String) (padWith : String) (padLen : Nat) : List String :=
  if toPad.length ≥ padLen then toPad
  else List.replicate (padLen - toPad.length) padWith ++ toPad

/-- The `Emitter` struct of emitter.go. -/
structure Emitter (env : Env) where
  depth : Nat
  ngram : Nat
  q : WindowQ
  emitted : List String
  tokensPerWindow : env.F

/-- An emitter inside `Emitter.Do`: the struct, the tokens sent on `outCh` so
far, and two ghost fields that are not part of the Go state: the number of
recovery overwrites of `emitted` (line 91) so far, and the number of tokens
that had been sent when `emitted` was last overwritten (0 while it never
was). -/
structure Run (env : Env) where
  e : Emitter env
  out : List String
  overwrites : Nat
  sentAtOverwrite : Nat := 0

/-- Embedding of `NewEmitter(depth, ngram)`. -/
def NewEmitter (env : Env) (depth ngram : Nat) : Emitter env :=
  { depth := depth, ngram := ngram, q := NewWindowQ depth ngram, emitted := [],
    tokensPerWindow := env.ofInt 0 }

/-- Embedding of `Emitter.emitToken`. Writing `e.emitted[len(e.emitted)-1]` into an
empty slice panics. After a recovery `e.emitted` shares its array with the
`Tokens` of the newest window, which the shift then changes; that field is
never read, so the sharing is not modelled. -/
def emitToken {env : Env} (r : Run env) (tok : String) : Option (Run env) :=
  let out := r.out ++ [tok]
  if r.e.emitted.length < r.e.ngram then
    some { r with e := { r.e with emitted := r.e.emitted ++ [tok] }, out := out }
  else
    let shifted := (Utility.goCopy r.e.emitted (r.e.emitted.drop 1)).1
    if r.e.emitted.length = 0 then none
    else
      some { r with
        e := { r.e with emitted := shifted.set (r.e.emitted.length - 1) tok }, out := out }

/-- The loop of `Emitter.emitTokens` with `n` iterations left: the result is
the state, the number of tokens emitted and whether an error is returned. -/
def emitLoop {env : Env} : Nat → Run env → Int → Option (Run env × Int × Bool)
  | 0, r, emitted => some (r, emitted, false)
  | n + 1, r, emitted =>
    match r.e.q.PredictNext env (padLeft r.e.emitted env.StartToken r.e.ngram) with
    | none => none
    | some none => some (r, emitted, true)
    | some (some tok) =>
      if tok = env.EndToken then some (r, emitted, false)
      else
        match emitToken r tok with
        | none => none
        | some r2 => emitLoop n r2 (emitted + 1)

/-- Embedding of `Emitter.emitTokens(ch, toEmit)`. -/
def emitTokens {env : Env} (r : Run env) (toEmit : Int) : Option (Run env × Int × Bool) :=
  emitLoop toEmit.toNat r 0

/-- The loop `for ; idx < 0; idx++` of the recovery (lines 84-87) with `n`
iterations left, on the state, `idx` and `toEmit`. -/
def overlapLoop {env : Env} (tokens : List String) :
    Nat → Run env → Int → Int → Option (Run env × Int × Int)
  | 0, r, idx, toEmit => some (r, idx, toEmit)
  | n + 1, r, idx, toEmit =>
    if idx + (r.e.ngram : Int) < 0 then none
    else
      match tokens[(idx + (r.e.ngram : Int)).toNat]? with
      | none => none
      | some tok =>
        match emitToken r tok with
        | none => none
        | some r2 => overlapLoop tokens n r2 (idx + 1) (toEmit - 1)

/-- The recovery of lines 80-98, entered with the state after the failed
`emitTokens`, the alignment `idx`, `toEmit` and the count `n` of tokens just
emitted. The slice `tokens[idx : idx+e.ngram]` panics when it leaves the
window (`strings.Split` returns a slice whose capacity is its length). -/
def recover {env : Env} (r : Run env) (tokens : List String) (idx toEmit n : Int) :
    Option (Run env × Bool) :=
  match overlapLoop tokens (-idx).toNat r idx (toEmit - n) with
  | none => none
  | some (r3, idx, toEmit) =>
    if 0 ≤ idx ∧ idx.toNat + r3.e.ngram ≤ tokens.length then
      match emitTokens
        { r3 with
          e := { r3.e with emitted := (tokens.drop idx.toNat).take r3.e.ngram },
          overwrites := r3.overwrites + 1
          sentAtOverwrite := r3.out.length } toEmit with
      | none => none
      | some (r5, _, err) => some (r5, err)
    else none

/-- The body of `if e.q.q.Full()` in `Emitter.Do` (lines 62-100), entered with
the state after the push and the update of `tokensPerWindow`. -/
def catchUp {env : Env} (r1 : Run env) (tokens : List String) : Option (Run env × Bool) :=
  match fuzzySearch r1.e.emitted tokens with
  | none => none
  | some idx =>
    let progress := env.div (env.ofInt (idx + r1.e.emitted.length)) (env.ofInt tokens.length)
    if env.lt progress env.progressTarget then
      let toEmit := env.toInt
        (env.div (env.mul r1.e.tokensPerWindow (env.sub env.progressTarget progress))
          env.progressTarget)
      match emitTokens r1 toEmit with
      | none => none
      | some (r2, n, err) =>
        if err ∧ tokens.length ≥ r2.e.ngram then recover r2 tokens idx toEmit n
        else some (r2, false)
    else some (r1, false)

/-- The state after `e.q.PushWindow(tokens)` returned the queue `q` and
`tokensPerWindow` was updated (lines 58-59). -/
def afterPush {env : Env} (r : Run env) (tokens : List String) (q : WindowQ) : Run env :=
  let fDepth := env.ofInt r.e.depth
  { r with
    e := { r.e with
      q := q
      tokensPerWindow :=
        env.div (env.add (env.mul r.e.tokensPerWindow (env.sub fDepth (env.ofInt 1)))
          (env.ofInt tokens.length)) fDepth } }

/-- One iteration of the loop of `Emitter.Do`, on one transcript. The result is
the new state and whether `Do` returns an error. -/
def doWindow {env : Env} (r : Run env) (window : String) : Option (Run env × Bool) :=
  if sanitize window = "" then some (r, false)
  else
    match r.e.q.PushWindow (tokenize (sanitize window)) with
    | none => none
    | some q =>
      if q.q.Full then catchUp (afterPush r (tokenize (sanitize window)) q)
        (tokenize (sanitize window))
      else some (afterPush r (tokenize (sanitize window)) q, false)

/-- The loop `for window := range inCh` of `Emitter.Do`. -/
def doLoop {env : Env} : Run env → List String → Option (Run env × Bool)
  | r, [] => some (r, false)
  | r, window :: rest =>
    match doWindow r window with
    | none => none
    | some (r2, true) => some (r2, true)
    | some (r2, false) => doLoop r2 rest

/-- Embedding of `Emitter.Do`: `inCh` is the list of transcripts received; the result is
the final state with the tokens sent on `outCh`, and whether an error is
returned; `none` is a panic. -/
def Emitter.Do {env : Env} (e : Emitter env) (inCh : List String) : Option (Run env × Bool) :=
  doLoop { e := e, out := [], overwrites := 0, sentAtOverwrite := 0 } inCh

/-- Modelled from the spec: the transitions a chain of the given order counts
for one training sequence, START-padded and END-terminated: every run of
`order` tokens with the token that follows it. -/
def trainingPairs (order : Nat) (startTok endTok : String) (seq : List String) :
    List (List String × String) :=
  let padded := List.replicate order startTok ++ seq ++ [endTok]
  (List.range (padded.length - order)).filterMap
    (fun i => (padded[i + order]?).map (fun nx => ((padded.drop i).take order, nx)))

/-- Modelled from the spec: the successors the chain has counted for a prefix,
in training order. -/
def Chain.successors (startTok endTok : String) (c : Chain) (pre : List String) :
    List String :=
  (c.added.flatMap (trainingPairs c.order startTok endTok)).filterMap
    (fun p => if p.1 = pre then some p.2 else none)

/-- Modelled from the spec: the deterministic next token of a chain. A prefix
without successor is the error "unknown prefix"; otherwise the fixed choice rule
`pick` selects one of the successors. -/
def specGenerate (startTok endTok : String) (pick : List String → String) (c : Chain)
    (pre : List String) : Option String :=
  if c.successors startTok endTok pre = [] then none
  else some (pick (c.successors startTok endTok pre))

/-- A fraction `num / den`, for exact arithmetic. -/
structure Frac where
  num : Int
  den : Nat
deriving DecidableEq, Repr

/-- Exact quotient of two fractions; a zero divisor gives zero. -/
def Frac.div (a b : Frac) : Frac :=
  if 0 < b.num then ⟨a.num * b.den, a.den * b.num.toNat⟩
  else if b.num < 0 then ⟨-(a.num * b.den), a.den * (-b.num).toNat⟩
  else ⟨0, 1⟩

/-- An instance of the parameters for evaluating runs: exact arithmetic on
fractions for `float32` (rounding is not modelled), 7/10 for `progressTarget`,
the sentinels of gomarkov, and the chain of the spec choosing the first
successor counted. -/
def exactEnv : Env :=
  { F := Frac
    ofInt := fun i => ⟨i, 1⟩
    add := fun a b => ⟨a.num * b.den + b.num * a.den, a.den * b.den⟩
    sub := fun a b => ⟨a.num * b.den - b.num * a.den, a.den * b.den⟩
    mul := fun a b => ⟨a.num * b.num, a.den * b.den⟩
    div := Frac.div
    lt := fun a b => decide (a.num * b.den < b.num * a.den)
    toInt := fun a => Int.tdiv a.num a.den
    progressTarget := ⟨7, 10⟩
    StartToken := "$"
    EndToken := "^"
    generate := specGenerate "$" "^" (fun l => l.headD "") }

end Predict

namespace Utility

/-- The cells of the buffer not yet rewritten since the last frame was sent
(there are `remaining` of them, at the end) still hold the content of that
frame, frame `k - 1`, which starts at position `k * S` of the padded stream.
Used when the step does not exceed the width. -/
def StaleInv {α : Type} (W S : Nat) (z : List α) (m : Nat) (st : ProcState α) : Prop :=
  ∀ k : Nat, (k + 1) * S = m + st.remaining → 0 < k →
    st.buf.drop (W - st.remaining)
      = (z.drop (k * S + (W - st.remaining))).take st.remaining

end Utility

/-! ## Theorems -/

namespace Utility

theorem framesOf_succ {α : Type} (W S : Nat) (z : List α) (k : Nat) :
    framesOf W S z (k + 1) = framesOf W S z k ++ [(z.drop ((k + 1) * S)).take W] := by
  simp [framesOf, List.range_succ]

/-- The buffer after the `copy` of line 39: its first `off + c` cells continue
the window of `z` held by the first `off` cells before. -/
theorem copy_into_tail {α : Type} {W K off c : Nat} {z buf chunk post : List α}
    (hlen : buf.length = W) (hoff : off ≤ W) (hc : c ≤ chunk.length) (hcw : off + c ≤ W)
    (hbuf : buf.take off = (z.drop K).take off)
    (hz : z.drop (K + off) = chunk ++ post) :
    (buf.take off ++ (chunk.take c ++ (buf.drop off).drop c)).length = W ∧
    (buf.take off ++ (chunk.take c ++ (buf.drop off).drop c)).take (off + c)
      = (z.drop K).take (off + c) := by
  constructor
  · simp only [List.length_append, List.length_take, List.length_drop]
    omega
  · have h1 : (buf.take off).length = off := by simp [hlen, hoff]
    have h2 : (chunk.take c).length = c := by simp [hc]
    rw [← List.append_assoc, List.take_append_of_le_length (by simp [h1, h2]),
      List.take_of_length_le (by simp [h1, h2]), List.take_add, hbuf, List.drop_drop, hz,
      List.take_append_of_le_length hc]

theorem fillAndEmit_inv {α : Type} {W S : Nat} (hS : 0 < S) {z : List α} {m : Nat}
    {st : ProcState α} (hinv : ProcInv W S z m st) (hrem : st.remaining ≤ W)
    {chunk post : List α} (hz : z.drop (W + m) = chunk ++ post) (hne : chunk ≠ []) :
    ∃ c, 0 < c ∧ c ≤ chunk.length ∧ (fillAndEmit S st chunk).2 = chunk.drop c ∧
      ProcInv W S z (m + c) (fillAndEmit S st chunk).1 := by
  obtain ⟨buf, rem, out⟩ := st
  obtain ⟨hlen, hpos, k, hout, hk1, hk2, hbuf⟩ := hinv
  dsimp only at hlen hpos hout hk1 hk2 hbuf hrem
  have hclen : 0 < chunk.length := List.length_pos.mpr hne
  have hmin : min (W - (W - rem)) chunk.length = min rem chunk.length := by
    omega
  have hz2 : z.drop ((k + 1) * S + (W - rem)) = chunk ++ post := by
    rw [← hz]; congr 1; omega
  obtain ⟨hl, ht⟩ := @copy_into_tail _ W ((k + 1) * S) (W - rem) (min rem chunk.length) z buf chunk post hlen
    (Nat.sub_le W rem) (Nat.min_le_right _ _) (by omega) hbuf hz2
  refine ⟨min rem chunk.length, by omega, by omega, ?_, ?_⟩
  · unfold fillAndEmit goCopy
    simp only [List.length_drop, hlen, hmin]
    split <;> rfl
  · unfold fillAndEmit goCopy
    simp only [List.length_drop, hlen, hmin]
    by_cases h0 : rem - min rem chunk.length = 0
    · have hc : min rem chunk.length = rem := by omega
      rw [hc] at hl ht ⊢
      have hW : W - rem + rem = W := by omega
      rw [hW] at ht
      rw [List.take_of_length_le (by omega)] at ht
      simp only [Nat.sub_self, if_true, hl]
      have hsucc : (k + 1 + 1) * S = (k + 1) * S + S := by ring
      refine ⟨?_, hS, k + 1, ?_, ?_, ?_, ?_⟩
      · dsimp only
        split
        · simp only [List.length_append, List.length_take, List.length_drop, hl]; omega
        · exact hl
      · dsimp only
        rw [framesOf_succ, hout, ht]
      · dsimp only; omega
      · dsimp only; omega
      · dsimp only
        by_cases hWS : W > S
        · rw [if_pos hWS, ht]
          have hm : min W (W - S) = W - S := by omega
          have hfl : (List.take W (List.drop ((k + 1) * S) z)).length = W := by
            rw [← ht]; exact hl
          rw [hm, List.take_append_of_le_length
            (by rw [List.length_take, List.length_drop, hfl]; omega),
            List.take_take, List.drop_take, List.drop_drop, hsucc, Nat.min_self]
          simp
        · have : W - S = 0 := by omega
          simp [this]
    · rw [if_neg h0]
      refine ⟨hl, ?_, k, hout, ?_, ?_, ?_⟩
      · dsimp only; omega
      · dsimp only; omega
      · dsimp only; omega
      · dsimp only
        have : W - (rem - min rem chunk.length) = W - rem + min rem chunk.length := by omega
        rw [this]
        exact ht

theorem processLoop_nil {α : Type} (S fuel : Nat) (st : ProcState α) :
    processLoop S fuel st [] = some st := by
  cases fuel <;> rfl

theorem processLoop_inv {α : Type} {W S : Nat} (hW : 0 < W) (hS : 0 < S) {z : List α} :
    ∀ (fuel : Nat) (st : ProcState α) (chunk : List α) (m : Nat) (post : List α),
      chunk.length ≤ fuel → ProcInv W S z m st → z.drop (W + m) = chunk ++ post →
      ∃ st', processLoop S fuel st chunk = some st' ∧ ProcInv W S z (m + chunk.length) st' := by
  intro fuel
  induction fuel with
  | zero =>
    intro st chunk m post hf hinv _
    cases chunk with
    | nil => exact ⟨st, processLoop_nil _ _ _, by simpa using hinv⟩
    | cons c cs => simp at hf
  | succ fuel ih =>
    intro st chunk m post hf hinv hz
    cases chunk with
    | nil => exact ⟨st, processLoop_nil _ _ _, by simpa using hinv⟩
    | cons c cs =>
      have hlen := hinv.hlen
      have hpos := hinv.hpos
      unfold processLoop
      dsimp only
      by_cases hskip : (st.remaining : Int) - (st.buf.length : Int) ≥ ((c :: cs).length : Int)
      · rw [if_pos hskip]
        refine ⟨_, processLoop_nil _ _ _, ?_⟩
        obtain ⟨_, _, k, hout, hk1, hk2, _⟩ := hinv
        refine ⟨hlen, ?_, k, hout, ?_, ?_, ?_⟩
        · dsimp only; omega
        · dsimp only; omega
        · dsimp only; omega
        · dsimp only
          have : W - (st.remaining - (c :: cs).length) = 0 := by omega
          rw [this]; simp
      · rw [if_neg hskip]
        -- the state and chunk after the optional skip of lines 34-37
        have key : ∃ (m1 : Nat) (st1 : ProcState α) (chunk1 : List α),
            (if (st.remaining : Int) - (st.buf.length : Int) > 0 then
              { st with remaining := st.remaining
                  - ((st.remaining : Int) - (st.buf.length : Int)).toNat } else st) = st1 ∧
            (if (st.remaining : Int) - (st.buf.length : Int) > 0 then
              (c :: cs).drop ((st.remaining : Int) - (st.buf.length : Int)).toNat
              else (c :: cs)) = chunk1 ∧
            ProcInv W S z m1 st1 ∧ st1.remaining ≤ W ∧ z.drop (W + m1) = chunk1 ++ post ∧
            chunk1 ≠ [] ∧ m ≤ m1 ∧ m1 + chunk1.length = m + (c :: cs).length := by
          by_cases hs : (st.remaining : Int) - (st.buf.length : Int) > 0
          · have ht : ((st.remaining : Int) - (st.buf.length : Int)).toNat = st.remaining - W := by
              omega
            refine ⟨m + (st.remaining - W), _, _, by rw [if_pos hs], by rw [if_pos hs], ?_, ?_, ?_,
              ?_, by omega, ?_⟩
            · obtain ⟨_, _, k, hout, hk1, hk2, _⟩ := hinv
              refine ⟨hlen, ?_, k, hout, ?_, ?_, ?_⟩
              · dsimp only; omega
              · dsimp only; omega
              · dsimp only; omega
              · dsimp only
                have : W - (st.remaining - ((st.remaining : Int) - (st.buf.length : Int)).toNat)
                    = 0 := by omega
                rw [this]; simp
            · dsimp only; omega
            · rw [ht, ← Nat.add_assoc, ← List.drop_drop, hz,
                List.drop_append_of_le_length (by omega)]
            · rw [ht]
              intro hnil
              have := congrArg List.length hnil
              simp only [List.length_drop, List.length_nil] at this
              omega
            · rw [ht, List.length_drop]; omega
          · refine ⟨m, _, _, by rw [if_neg hs], by rw [if_neg hs], hinv, by omega, hz, by simp,
              Nat.le_refl _, rfl⟩
        obtain ⟨m1, st1, chunk1, e1, e2, hinv1, hrem1, hz1, hne1, hmm, hm1⟩ := key
        rw [e1, e2]
        obtain ⟨n, hn0, hn1, hrest, hinv2⟩ := fillAndEmit_inv hS hinv1 hrem1 hz1 hne1
        have hz2 : z.drop (W + (m1 + n)) = (fillAndEmit S st1 chunk1).2 ++ post := by
          rw [hrest, ← Nat.add_assoc, ← List.drop_drop, hz1, List.drop_append_of_le_length hn1]
        have hf2 : (fillAndEmit S st1 chunk1).2.length ≤ fuel := by
          rw [hrest, List.length_drop]
          simp only [List.length_cons] at hf hm1
          omega
        obtain ⟨st', hrun, hinv'⟩ := ih _ _ _ post hf2 hinv2 hz2
        refine ⟨st', hrun, ?_⟩
        have : m1 + n + (fillAndEmit S st1 chunk1).2.length = m + (c :: cs).length := by
          rw [hrest, List.length_drop]; omega
        rw [this] at hinv'
        exact hinv'

theorem foldlM_process_inv {α : Type} {W S : Nat} (hW : 0 < W) (hS : 0 < S) {z : List α}
    (b : Windower α) (hb : b.step = S) :
    ∀ (chunks : List (List α)) (st : ProcState α) (m : Nat) (post : List α),
      ProcInv W S z m st → z.drop (W + m) = chunks.flatten ++ post →
      ∃ st', chunks.foldlM b.process st = some st' ∧
        ProcInv W S z (m + chunks.flatten.length) st' := by
  intro chunks
  induction chunks with
  | nil => intro st m post hinv _; exact ⟨st, rfl, by simpa using hinv⟩
  | cons chunk rest ih =>
    intro st m post hinv hz
    rw [List.flatten_cons, List.append_assoc] at hz
    obtain ⟨st1, h1, hinv1⟩ :=
      processLoop_inv hW hS chunk.length st chunk m _ (Nat.le_refl _) hinv hz
    have hz1 : z.drop (W + (m + chunk.length)) = rest.flatten ++ post := by
      rw [← Nat.add_assoc, ← List.drop_drop, hz, List.drop_left]
    obtain ⟨st2, h2, hinv2⟩ := ih st1 _ post hinv1 hz1
    refine ⟨st2, ?_, ?_⟩
    · rw [List.foldlM_cons]
      unfold Windower.process
      rw [hb, h1]
      unfold Windower.process at h2
      rw [hb] at h2
      exact h2
    · rw [List.flatten_cons, List.length_append, ← Nat.add_assoc]
      exact hinv2

/-- The padded stream of a run of `Do`: `W` cells standing for the buffer before
the run, the input samples, and the `W` zero samples of the final flush. -/
theorem Do_inv {α : Type} [Inhabited α] {W S : Nat} (hW : 0 < W) (hS : 0 < S)
    (b : Windower α) (hlen : b.buf.length = W) (hstep : b.step = S) (chunks : List (List α)) :
    ∃ st', b.Do chunks = some (⟨S, st'.buf⟩, st'.out) ∧
      ProcInv W S ((List.replicate S default ++ b.buf).take W ++ chunks.flatten
        ++ List.replicate W default) (chunks.flatten.length + W) st' := by
  have hP : ((List.replicate S (default : α) ++ b.buf).take W).length = W := by
    simp only [List.length_take, List.length_append, List.length_replicate, hlen]; omega
  have h0 : ProcInv W S ((List.replicate S default ++ b.buf).take W ++ chunks.flatten
      ++ List.replicate W default) 0 ⟨b.buf, b.step, []⟩ := by
    refine ⟨hlen, by dsimp only; omega, 0, by simp [framesOf], by dsimp only; omega,
      by omega, ?_⟩
    dsimp only
    rw [hstep]
    by_cases hSW : S ≤ W
    · have hPe : (List.replicate S (default : α) ++ b.buf).take W
          = List.replicate S default ++ b.buf.take (W - S) := by
        rw [List.take_append_eq_append_take,
          @List.take_of_length_le α W (List.replicate S (default : α))
            (by rw [List.length_replicate]; exact hSW), List.length_replicate]
      rw [hPe, Nat.zero_add, Nat.one_mul, List.append_assoc, List.append_assoc,
        List.drop_left' (List.length_replicate _ _),
        List.take_append_of_le_length (by rw [List.length_take, hlen]; omega),
        List.take_take, Nat.min_self]
    · have : W - S = 0 := by omega
      rw [this]; simp
  have hz0 : ((List.replicate S default ++ b.buf).take W ++ chunks.flatten
      ++ List.replicate W default).drop (W + 0)
      = chunks.flatten ++ List.replicate W default := by
    rw [Nat.add_zero, List.append_assoc, List.drop_left' hP]
  obtain ⟨st1, h1, hinv1⟩ := foldlM_process_inv hW hS b hstep chunks _ 0 _ h0 hz0
  rw [Nat.zero_add] at hinv1
  have hz1 : ((List.replicate S default ++ b.buf).take W ++ chunks.flatten
      ++ List.replicate W default).drop (W + chunks.flatten.length)
      = List.replicate W default ++ [] := by
    rw [List.append_assoc, ← List.drop_drop, List.drop_left' hP, List.drop_left]
    simp
  obtain ⟨st2, h2, hinv2⟩ := processLoop_inv hW hS (List.replicate W default).length st1
    (List.replicate W default) _ _ (Nat.le_refl _) hinv1 hz1
  rw [List.length_replicate] at hinv2
  refine ⟨st2, ?_, hinv2⟩
  unfold Windower.Do
  rw [h1]
  simp only [Option.bind_eq_bind, Option.some_bind]
  unfold Windower.process
  rw [hlen, hstep, h2]
  rfl

theorem Do_frames {α : Type} [Inhabited α] {W S : Nat} (hW : 0 < W) (hS : 0 < S)
    (b : Windower α) (hlen : b.buf.length = W) (hstep : b.step = S) (chunks : List (List α)) :
    ∃ buf', buf'.length = W ∧ b.Do chunks = some (⟨S, buf'⟩,
      framesOf W S ((List.replicate S default ++ b.buf).take W ++ chunks.flatten
        ++ List.replicate W default) ((chunks.flatten.length + W) / S)) := by
  obtain ⟨st', hdo, hl, hpos, k, hout, hk1, hk2, _⟩ := Do_inv hW hS b hlen hstep chunks
  have hk : (chunks.flatten.length + W) / S = k :=
    Nat.div_eq_of_lt_le hk2 (by omega)
  exact ⟨st'.buf, hl, by rw [hdo, hout, hk]⟩

end Utility

namespace Utility

theorem framesOf_length {α : Type} (W S : Nat) (z : List α) (k : Nat) :
    (framesOf W S z k).length = k := by
  simp [framesOf]

theorem framesOf_getElem? {α : Type} (W S : Nat) (z : List α) (cnt k : Nat) (fr : List α)
    (h : (framesOf W S z cnt)[k]? = some fr) :
    k < cnt ∧ fr = (z.drop ((k + 1) * S)).take W := by
  have hk : k < cnt := by
    have := (List.getElem?_eq_some_iff.mp h).1
    rwa [framesOf_length] at this
  refine ⟨hk, ?_⟩
  unfold framesOf at h
  rw [List.getElem?_map, List.getElem?_range hk] at h
  simpa using h.symm

theorem NewWindower_pos {α : Type} [Inhabited α] (W S : Nat) (hW : 0 < W) (hS : 0 < S) :
    (NewWindower (W : Int) (S : Int) : Option (Windower α))
      = some ⟨S, List.replicate W default⟩ := by
  unfold NewWindower
  rw [if_neg (by omega)]
  simp

/-- Closed form of a run of `Do` on a new windower. -/
theorem fresh_Do {α : Type} [Inhabited α] (W S : Nat) (hW : 0 < W) (hS : 0 < S)
    (chunks : List (List α)) :
    ∃ buf, (⟨S, List.replicate W default⟩ : Windower α).Do chunks = some (⟨S, buf⟩,
      framesOf W S (List.replicate W default ++ chunks.flatten ++ List.replicate W default)
        ((chunks.flatten.length + W) / S)) := by
  obtain ⟨buf, _, h⟩ := Do_frames hW hS (⟨S, List.replicate W default⟩ : Windower α)
    (List.length_replicate _ _) rfl chunks
  refine ⟨buf, ?_⟩
  rw [h]
  have : (List.replicate S (default : α) ++ List.replicate W default).take W
      = List.replicate W default := by
    rw [List.append_replicate_replicate, List.take_replicate]
    congr 1; omega
  dsimp only at this ⊢
  rw [this]

/-- Reading cell `j` of frame `k` of the padded stream of a new windower. -/
theorem fresh_frame_cell {α : Type} [Inhabited α] (W S : Nat) (x : List α) (k j : Nat)
    (hj : j < W) :
    ((List.replicate W default ++ x ++ List.replicate W default).drop ((k + 1) * S)
        |>.take W)[j]?
      = paddedAt x W (((k : Int) + 1) * S - W + j) := by
  rw [List.getElem?_take, if_pos hj, List.getElem?_drop, List.append_assoc]
  unfold paddedAt
  have hK : ((k : Int) + 1) * S = (((k + 1) * S : Nat) : Int) := by push_cast; ring
  rw [hK]
  generalize (k + 1) * S = K
  by_cases hneg : (K : Int) - W + j < 0
  · rw [if_pos hneg]
    have : K + j < W := by omega
    rw [List.getElem?_append_left (by simpa using this), List.getElem?_replicate, if_pos this]
  · rw [if_neg hneg]
    have h1 : W ≤ K + j := by omega
    rw [List.getElem?_append_right (by simpa using h1), List.length_replicate]
    congr 1
    omega

/-- A frame of a new windower has `W` cells when it is one of the first
`(n + W) / S` frames. -/
theorem fresh_frame_length {α : Type} [Inhabited α] (W S : Nat) (x : List α) (k : Nat)
    (hk : k < (x.length + W) / S) :
    (((List.replicate W default ++ x ++ List.replicate W default).drop ((k + 1) * S)).take
      W).length = W := by
  have h1 : (k + 1) * S ≤ (x.length + W) / S * S := Nat.mul_le_mul_right S hk
  have h2 := Nat.div_mul_le_self (x.length + W) S
  simp only [List.length_take, List.length_drop, List.length_append, List.length_replicate]
  omega

theorem framesOf_getElem?_lt {α : Type} (W S : Nat) (z : List α) (cnt k : Nat) (hk : k < cnt) :
    (framesOf W S z cnt)[k]? = some ((z.drop ((k + 1) * S)).take W) := by
  unfold framesOf
  rw [List.getElem?_map, List.getElem?_range hk]
  rfl

theorem paddedAt_input {α : Type} [Inhabited α] (x : List α) (W p : Nat) (hp : p < x.length) :
    paddedAt x W (p : Int) = x[p]? := by
  unfold paddedAt
  rw [if_neg (by omega), Int.toNat_ofNat, List.getElem?_append_left hp]

/-- C1. For every width W > 0, step S > 0 and every list of chunks with
concatenation x of length n, `Do` on a new windower sends exactly
floor((n + W) / S) frames, each of length W; cell j of frame k holds
y[(k+1)*S - W + j], where y is x followed by W zero samples and is the zero
sample at negative indices; so input position p is aligned with a cell of
frame k, which then holds the sample at p, exactly when
(k+1)*S - W ≤ p < (k+1)*S. -/
theorem windower_do_frames {α : Type} [Inhabited α] (W S : Nat) (hW : 0 < W) (hS : 0 < S)
    (chunks : List (List α)) :
    ∃ (b b' : Windower α) (frames : List (List α)),
      NewWindower (W : Int) (S : Int) = some b ∧ b.Do chunks = some (b', frames) ∧
      frames.length = (chunks.flatten.length + W) / S ∧
      (∀ (k : Nat) (fr : List α), frames[k]? = some fr → fr.length = W ∧
        ∀ j : Nat, j < W → fr[j]? = paddedAt chunks.flatten W (((k : Int) + 1) * S - W + j)) ∧
      (∀ (k : Nat) (fr : List α) (p : Nat), frames[k]? = some fr → p < chunks.flatten.length →
        ((∃ j : Nat, j < W ∧ ((k : Int) + 1) * S - W + j = p ∧ fr[j]? = chunks.flatten[p]?)
          ↔ (((k : Int) + 1) * S - W ≤ p ∧ (p : Int) < ((k : Int) + 1) * S))) := by
  obtain ⟨buf, hdo⟩ := fresh_Do W S hW hS chunks
  have hcell : ∀ (k : Nat) (fr : List α), (framesOf W S (List.replicate W default ++ chunks.flatten
        ++ List.replicate W default) ((chunks.flatten.length + W) / S))[k]? = some fr →
      fr.length = W ∧
        ∀ j : Nat, j < W → fr[j]? = paddedAt chunks.flatten W (((k : Int) + 1) * S - W + j) := by
    intro k fr hfr
    obtain ⟨hk, rfl⟩ := framesOf_getElem? _ _ _ _ _ _ hfr
    exact ⟨fresh_frame_length W S _ k hk, fun j hj => fresh_frame_cell W S _ k j hj⟩
  refine ⟨_, _, _, NewWindower_pos W S hW hS, hdo, framesOf_length _ _ _ _, hcell, ?_⟩
  intro k fr p hfr hp
  have hK : ((k : Int) + 1) * S = (((k + 1) * S : Nat) : Int) := by push_cast; ring
  rw [hK]
  constructor
  · rintro ⟨j, hj, he, _⟩
    omega
  · rintro ⟨hlo, hhi⟩
    have hidx : (((k + 1) * S : Nat) : Int) - W + ((p + W - (k + 1) * S : Nat) : Int)
        = (p : Int) := by
      omega
    refine ⟨p + W - (k + 1) * S, by omega, hidx, ?_⟩
    rw [(hcell k fr hfr).2 (p + W - (k + 1) * S) (by omega), hK, hidx,
      paddedAt_input _ _ _ hp]

/-- C1, instances: the three cases of TestWindower (bytes as numbers, the input
cut into chunks of 3, 2 and 1 samples). -/
theorem windower_do_frames_witness :
    (0 < 5 ∧ 0 < 2 ∧ ∃ (b b' : Windower Nat) (frames : List (List Nat)),
      NewWindower ((5 : Nat) : Int) ((2 : Nat) : Int) = some b ∧
      b.Do [[104, 101, 108], [108, 111, 32], [116, 104, 101], [114, 101]]
        = some (b', frames) ∧
      frames.length = ([[104, 101, 108], [108, 111, 32], [116, 104, 101],
        [114, 101]].flatten.length + 5) / 2 ∧
      (∀ (k : Nat) (fr : List Nat), frames[k]? = some fr → fr.length = 5 ∧
        ∀ j : Nat, j < 5 → fr[j]? = paddedAt [[104, 101, 108], [108, 111, 32], [116, 104, 101],
          [114, 101]].flatten 5 (((k : Int) + 1) * (2 : Nat) - (5 : Nat) + j)) ∧
      (∀ (k : Nat) (fr : List Nat) (p : Nat), frames[k]? = some fr →
        p < [[104, 101, 108], [108, 111, 32], [116, 104, 101], [114, 101]].flatten.length →
        ((∃ j : Nat, j < 5 ∧ ((k : Int) + 1) * (2 : Nat) - (5 : Nat) + j = p ∧
            fr[j]? = [[104, 101, 108], [108, 111, 32], [116, 104, 101],
              [114, 101]].flatten[p]?)
          ↔ (((k : Int) + 1) * (2 : Nat) - (5 : Nat) ≤ p ∧
            (p : Int) < ((k : Int) + 1) * (2 : Nat))))) ∧
    ((NewWindower 5 2 : Option (Windower Nat)).bind
        (fun b => (b.Do [[104, 101, 108], [108, 111, 32], [116, 104, 101], [114, 101]]).map
          Prod.snd)
      = some [[0, 0, 0, 104, 101], [0, 104, 101, 108, 108], [101, 108, 108, 111, 32],
          [108, 111, 32, 116, 104], [32, 116, 104, 101, 114], [104, 101, 114, 101, 0],
          [114, 101, 0, 0, 0], [0, 0, 0, 0, 0]]) ∧
    ((NewWindower 3 5 : Option (Windower Nat)).bind
        (fun b => (b.Do [[97, 32], [115, 117], [114, 112], [114, 105], [115, 101], [32, 116],
          [111, 32], [98, 101], [32, 115], [117, 114], [101]]).map Prod.snd)
      = some [[115, 117, 114], [105, 115, 101], [111, 32, 98], [115, 117, 114]]) ∧
    ((NewWindower 4 4 : Option (Windower Nat)).bind
        (fun b => (b.Do [[105], [32], [97], [109], [32], [116], [104], [101], [32], [115],
          [101], [110], [97], [116], [101]]).map Prod.snd)
      = some [[105, 32, 97, 109], [32, 116, 104, 101], [32, 115, 101, 110],
          [97, 116, 101, 0]]) :=
  ⟨⟨by decide, by decide,
    windower_do_frames 5 2 (by decide) (by decide)
      [[104, 101, 108], [108, 111, 32], [116, 104, 101], [114, 101]]⟩,
   by decide, by decide, by decide⟩

/-- C2. Chunk-size independence: for W > 0, S > 0 and two lists of chunks (empty
chunks allowed) with the same concatenation, `Do` on a new windower sends the
same sequence of frames for both. -/
theorem windower_chunk_independence {α : Type} [Inhabited α] (W S : Nat) (hW : 0 < W)
    (hS : 0 < S) (c1 c2 : List (List α)) (h : c1.flatten = c2.flatten) :
    ∃ (b b1 b2 : Windower α) (frames : List (List α)),
      NewWindower (W : Int) (S : Int) = some b ∧
      b.Do c1 = some (b1, frames) ∧ b.Do c2 = some (b2, frames) := by
  obtain ⟨buf1, h1⟩ := fresh_Do W S hW hS c1
  obtain ⟨buf2, h2⟩ := fresh_Do W S hW hS c2
  rw [← h] at h2
  exact ⟨_, _, _, _, NewWindower_pos W S hW hS, h1, h2⟩

/-- C2, instance: width 5, step 2, the samples 1 2 3 cut in two different ways. -/
theorem windower_chunk_independence_witness :
    0 < 5 ∧ 0 < 2 ∧ [[1, 2], [], [3]].flatten = [[1], [2, 3]].flatten ∧
    ∃ (b b1 b2 : Windower Nat) (frames : List (List Nat)),
      NewWindower ((5 : Nat) : Int) ((2 : Nat) : Int) = some b ∧
      b.Do [[1, 2], [], [3]] = some (b1, frames) ∧ b.Do [[1], [2, 3]] = some (b2, frames) :=
  ⟨by decide, by decide, by decide,
    windower_chunk_independence 5 2 (by decide) (by decide) [[1, 2], [], [3]] [[1], [2, 3]]
      (by decide)⟩

/-- C3, as stated, fails when the step exceeds the width: with W = 1 and S = 2
the input 7 9 yields the single frame [9], and the sample 7 is in no frame. -/
theorem windower_coverage_counterexample :
    ∃ (b b' : Windower Nat) (frames : List (List Nat)),
      NewWindower 1 2 = some b ∧ b.Do [[7, 9]] = some (b', frames) ∧
      ∃ (p : Nat) (a : Nat), [[7, 9]].flatten[p]? = some a ∧
        ¬ ∃ (k j : Nat) (fr : List Nat), frames[k]? = some fr ∧ fr[j]? = some a := by
  refine ⟨⟨2, [0]⟩, ⟨2, [9]⟩, [[9]], by decide, by decide, 0, 7, by decide, ?_⟩
  rintro ⟨k, j, fr, hk, hj⟩
  have hfr : fr = [9] := by
    cases k with
    | zero => simpa using hk.symm
    | succ k => simp at hk
  subst hfr
  cases j with
  | zero => simp at hj
  | succ j => simp at hj

/-- C3, amended. Coverage when the step does not exceed the width: for
0 < S ≤ W every input sample, at position p, is held by some frame k of the
run of `Do` on a new windower, in the cell j with (k+1)*S + j = p + W. -/
theorem windower_coverage_overlap {α : Type} [Inhabited α] (W S : Nat) (hW : 0 < W)
    (hS : 0 < S) (hSW : S ≤ W) (chunks : List (List α)) :
    ∃ (b b' : Windower α) (frames : List (List α)),
      NewWindower (W : Int) (S : Int) = some b ∧ b.Do chunks = some (b', frames) ∧
      ∀ (p : Nat) (a : α), chunks.flatten[p]? = some a →
        ∃ (k j : Nat) (fr : List α), frames[k]? = some fr ∧ j < W ∧
          (k + 1) * S + j = p + W ∧ fr[j]? = some a := by
  obtain ⟨buf, hdo⟩ := fresh_Do W S hW hS chunks
  refine ⟨_, _, _, NewWindower_pos W S hW hS, hdo, ?_⟩
  intro p a hpa
  have hp : p < chunks.flatten.length := (List.getElem?_eq_some_iff.mp hpa).1
  have hdm := Nat.div_add_mod p S
  have hmod := Nat.mod_lt p hS
  have hK : (p / S + 1) * S = S * (p / S) + S := by ring
  have hk : p / S < (chunks.flatten.length + W) / S := by
    apply (Nat.le_div_iff_mul_le hS).mpr
    have : (p / S).succ * S = S * (p / S) + S := by rw [Nat.succ_mul, Nat.mul_comm]
    omega
  refine ⟨p / S, p + W - (p / S + 1) * S, _, framesOf_getElem?_lt _ _ _ _ _ hk, by omega,
    by omega, ?_⟩
  rw [fresh_frame_cell W S _ _ _ (by omega)]
  have hidx : ((p / S : Nat) : Int) + 1 = (((p / S + 1 : Nat)) : Int) := by push_cast; rfl
  have hidx2 : (((p / S : Nat) : Int) + 1) * S - W + ((p + W - (p / S + 1) * S : Nat) : Int)
      = (p : Int) := by
    rw [hidx, ← Nat.cast_mul]
    omega
  rw [hidx2, paddedAt_input _ _ _ hp, hpa]

/-- C3 amended, instance: width 3, step 2. -/
theorem windower_coverage_overlap_witness :
    0 < 3 ∧ 0 < 2 ∧ 2 ≤ 3 ∧
    ∃ (b b' : Windower Nat) (frames : List (List Nat)),
      NewWindower ((3 : Nat) : Int) ((2 : Nat) : Int) = some b ∧
      b.Do [[7], [8, 9]] = some (b', frames) ∧
      ∀ (p : Nat) (a : Nat), [[7], [8, 9]].flatten[p]? = some a →
        ∃ (k j : Nat) (fr : List Nat), frames[k]? = some fr ∧ j < 3 ∧
          (k + 1) * 2 + j = p + 3 ∧ fr[j]? = some a :=
  ⟨by decide, by decide, by decide,
    windower_coverage_overlap 3 2 (by decide) (by decide) (by decide) [[7], [8, 9]]⟩

/-- C4, as stated, fails: with W = 3 and S = 2 the input 7 8 yields the frames
[0,7,8] and [8,0,0]; the last frame still holds an input sample. -/
theorem windower_flush_counterexample :
    ∃ (b b' : Windower Nat) (frames : List (List Nat)),
      (0 < 2 ∧ 2 ≤ 3) ∧ NewWindower 3 2 = some b ∧ b.Do [[7, 8]] = some (b', frames) ∧
      frames.getLast? = some [8, 0, 0] ∧ frames.getLast? ≠ some (List.replicate 3 default) :=
  ⟨⟨2, [0, 0, 0]⟩, ⟨2, [0, 0, 0]⟩, [[0, 7, 8], [8, 0, 0]], by decide, by decide, by decide,
    by decide, by decide⟩

/-- C4, amended. For 0 < S ≤ W and an input of n samples, `Do` on a new
windower sends at least one frame, and the last frame sent is zero in every
cell j ≥ (n + W) mod S (the right padding of the flush); it consists of W zero
samples when S divides n + W. -/
theorem windower_flush_last_frame {α : Type} [Inhabited α] (W S : Nat) (hW : 0 < W)
    (hS : 0 < S) (hSW : S ≤ W) (chunks : List (List α)) :
    ∃ (b b' : Windower α) (frames : List (List α)) (fr : List α),
      NewWindower (W : Int) (S : Int) = some b ∧ b.Do chunks = some (b', frames) ∧
      frames.getLast? = some fr ∧ fr.length = W ∧
      (∀ j : Nat, (chunks.flatten.length + W) % S ≤ j → j < W → fr[j]? = some default) ∧
      (S ∣ chunks.flatten.length + W → fr = List.replicate W default) := by
  obtain ⟨buf, hdo⟩ := fresh_Do W S hW hS chunks
  have hdm := Nat.div_add_mod (chunks.flatten.length + W) S
  have hmod := Nat.mod_lt (chunks.flatten.length + W) hS
  have hcnt : 0 < (chunks.flatten.length + W) / S :=
    Nat.div_pos (by omega) hS
  obtain ⟨c, hc⟩ : ∃ c, (chunks.flatten.length + W) / S = c + 1 := ⟨_, (Nat.succ_pred_eq_of_pos hcnt).symm⟩
  have hcS : (c + 1) * S = S * ((chunks.flatten.length + W) / S) := by rw [hc, Nat.mul_comm]
  have hcell : ∀ j : Nat, (chunks.flatten.length + W) % S ≤ j → j < W →
      (((List.replicate W default ++ chunks.flatten ++ List.replicate W default).drop
        ((c + 1) * S)).take W)[j]? = some (default : α) := by
    intro j hj hjW
    rw [List.getElem?_take, if_pos hjW, List.getElem?_drop,
      List.getElem?_append_right (by simp only [List.length_append, List.length_replicate]; omega),
      List.getElem?_replicate, if_pos (by simp only [List.length_append, List.length_replicate]; omega)]
  refine ⟨_, _, _, _, NewWindower_pos W S hW hS, hdo, ?_,
    fresh_frame_length W S _ c (by omega), hcell, ?_⟩
  · rw [hc, framesOf_succ, List.getLast?_append]
    rfl
  · intro hdiv
    have h0 : (chunks.flatten.length + W) % S = 0 := Nat.mod_eq_zero_of_dvd hdiv
    apply List.ext_getElem?
    intro j
    by_cases hjW : j < W
    · rw [hcell j (by omega) hjW, List.getElem?_replicate, if_pos hjW]
    · rw [List.getElem?_eq_none (by rw [fresh_frame_length W S _ c (by omega)]; omega),
        List.getElem?_eq_none (by rw [List.length_replicate]; omega)]

/-- C4 amended, instance: width 5, step 2 and the eleven samples of the test
"hello there"; 2 divides 11 + 5. -/
theorem windower_flush_last_frame_witness :
    0 < 5 ∧ 0 < 2 ∧ 2 ≤ 5 ∧
    ∃ (b b' : Windower Nat) (frames : List (List Nat)) (fr : List Nat),
      NewWindower ((5 : Nat) : Int) ((2 : Nat) : Int) = some b ∧
      b.Do [[104, 101, 108], [108, 111, 32], [116, 104, 101], [114, 101]]
        = some (b', frames) ∧
      frames.getLast? = some fr ∧ fr.length = 5 ∧
      (∀ j : Nat, ([[104, 101, 108], [108, 111, 32], [116, 104, 101],
        [114, 101]].flatten.length + 5) % 2 ≤ j → j < 5 → fr[j]? = some default) ∧
      (2 ∣ [[104, 101, 108], [108, 111, 32], [116, 104, 101], [114, 101]].flatten.length + 5 →
        fr = List.replicate 5 default) :=
  ⟨by decide, by decide, by decide,
    windower_flush_last_frame 5 2 (by decide) (by decide) (by decide)
      [[104, 101, 108], [108, 111, 32], [116, 104, 101], [114, 101]]⟩

end Utility

namespace Utility

theorem slot_ne {C i k : Nat} (hik : i < k) (hk : k < i + C) : i % C ≠ k % C := by
  intro h
  have h0 : (k - i) % C = 0 := Nat.sub_mod_eq_zero_of_mod_eq h.symm
  have hd : C ∣ k - i := Nat.dvd_of_mod_eq_zero h0
  have := Nat.le_of_dvd (by omega) hd
  omega

theorem mapM_some_of_forall {β γ : Type} (f : β → Option γ) (g : β → γ) :
    ∀ l : List β, (∀ x ∈ l, f x = some (g x)) → l.mapM f = some (l.map g) := by
  intro l
  induction l with
  | nil => intro _; rfl
  | cons a l ih =>
    intro h
    rw [List.mapM_cons, h a (List.mem_cons_self _ _), ih (fun x hx => h x (List.mem_cons_of_mem _ hx))]
    rfl

theorem QInv_new {α : Type} [Inhabited α] (C : Nat) : QInv C [] (NewQueue C : Queue α) := by
  refine ⟨by simp [NewQueue], by simp [NewQueue], ?_, by simp⟩
  simp only [NewQueue, List.length_nil, Nat.zero_add]
  by_cases h : C = 0
  · subst h; rfl
  · have : C - 1 < C := by omega
    rw [Nat.mod_eq_of_lt this]

theorem Push_inv {α : Type} {C : Nat} (hC : 0 < C) {xs : List α} {q : Queue α}
    (h : QInv C xs q) (x : α) :
    ∃ q', q.Push x = some q' ∧ QInv C (xs ++ [x]) q' := by
  obtain ⟨hcap, hlen, hhead, hcell⟩ := h
  have hh : (q.head + 1) % C = xs.length % C := by
    rw [hhead, Nat.mod_add_mod]
    have : xs.length + C - 1 + 1 = xs.length + C := by omega
    rw [this, Nat.add_mod_right]
  have hlt : xs.length % C < C := Nat.mod_lt _ hC
  refine ⟨_, by unfold Queue.Push Queue.Cap; rw [hcap, if_neg (by omega)], ?_⟩
  dsimp only [Queue.Len, Queue.Cap]
  rw [hh]
  refine ⟨by simp [hcap], ?_, ?_, ?_⟩
  · dsimp only
    rw [hlen, List.length_append, List.length_singleton]
    split <;> omega
  · dsimp only
    rw [List.length_append, List.length_singleton]
    have : xs.length + 1 + C - 1 = xs.length + C := by omega
    rw [this, Nat.add_mod_right]
  · intro i hi hiC
    dsimp only
    rw [List.length_append, List.length_singleton] at hi hiC
    by_cases hik : i = xs.length
    · subst hik
      rw [List.getElem?_set_self (by omega), List.getElem?_append_right (Nat.le_refl _)]
      simp
    · have hne : xs.length % C ≠ i % C := fun e => slot_ne (by omega) (by omega) e.symm
      rw [List.getElem?_set_ne hne, hcell i (by omega) (by omega),
        List.getElem?_append_left (by omega)]

theorem pushAll_inv {α : Type} [Inhabited α] {C : Nat} (hC : 0 < C) (xs : List α) :
    ∃ q, (NewQueue C : Queue α).pushAll xs = some q ∧ QInv C xs q := by
  induction xs using List.reverseRecOn with
  | nil => exact ⟨_, rfl, QInv_new C⟩
  | append_singleton xs x ih =>
    obtain ⟨q, hq, hinv⟩ := ih
    obtain ⟨q', hq', hinv'⟩ := Push_inv hC hinv x
    refine ⟨q', ?_, hinv'⟩
    unfold Queue.pushAll at hq ⊢
    rw [List.foldlM_append, hq]
    simpa using hq'

theorem mapM_range_eq {γ : Type} [Inhabited γ] (f : Nat → Option γ) (ys : List γ)
    (h : ∀ i : Nat, i < ys.length → f i = ys[i]?) :
    (List.range ys.length).mapM f = some ys := by
  rw [mapM_some_of_forall f (fun i => ys.getD i default)]
  · congr 1
    apply List.ext_getElem?
    intro i
    by_cases hi : i < ys.length
    · rw [List.getElem?_map, List.getElem?_range hi]
      simp [List.getD_eq_getElem?_getD, List.getElem?_eq_getElem hi]
    · rw [List.getElem?_eq_none (by simpa using hi), List.getElem?_eq_none (by simpa using hi)]
  · intro i hi
    have hi' : i < ys.length := List.mem_range.mp hi
    rw [h i hi']
    simp [List.getD_eq_getElem?_getD, List.getElem?_eq_getElem hi']

/-- The cell read at step `i` of `Do`, as the time of the push that filled it. -/
theorem Do_cell {C k i : Nat} (hC : 0 < C) (hi : 0 < i) (hik : i < min k C) :
    (i + (k + C - 1) % C) % min k C = (k - min k C + i - 1) % C := by
  by_cases hkC : k ≤ C
  · have hmin : min k C = k := by omega
    rw [hmin] at hik ⊢
    have h1 : (k + C - 1) % C = k - 1 := by
      have : k + C - 1 = (k - 1) + C := by omega
      rw [this, Nat.add_mod_right, Nat.mod_eq_of_lt (by omega)]
    have h2 : i + (k - 1) = (i - 1) + k := by omega
    have h3 : k - k + i - 1 = i - 1 := by omega
    rw [h1, h2, Nat.add_mod_right, Nat.mod_eq_of_lt (by omega), h3, Nat.mod_eq_of_lt (by omega)]
  · have hmin : min k C = C := by omega
    rw [hmin] at hik ⊢
    have h1 : i + (k + C - 1) = (k - C + i - 1) + C + C := by omega
    rw [Nat.add_mod_mod, h1, Nat.add_mod_right, Nat.add_mod_right]

/-- Visit order of `Do` after the pushes `xs`: the newest element first, then the
other resident elements from the oldest to the second newest. -/
theorem Do_visits {α : Type} [Inhabited α] {C : Nat} (hC : 0 < C) {xs : List α}
    {q : Queue α} (h : QInv C xs q) :
    q.Do = some (xs.drop (xs.length - 1)
      ++ (xs.drop (xs.length - min xs.length C)).take (min xs.length C - 1)) := by
  obtain ⟨hcap, hlen, hhead, hcell⟩ := h
  have hlen2 : (xs.drop (xs.length - 1)
      ++ (xs.drop (xs.length - min xs.length C)).take (min xs.length C - 1)).length
      = q.Len := by
    unfold Queue.Len
    simp only [List.length_append, List.length_drop, List.length_take]
    omega
  unfold Queue.Do
  rw [← hlen2]
  apply mapM_range_eq
  intro i hi
  rw [hlen2] at hi ⊢
  unfold Queue.Len at hi ⊢
  rw [hlen] at hi
  rw [hlen, hhead]
  have hk : 0 < xs.length := by omega
  by_cases hi0 : i = 0
  · subst hi0
    have h1 : (xs.length + C - 1) % C = (xs.length - 1) % C := by
      have : xs.length + C - 1 = (xs.length - 1) + C := by omega
      rw [this, Nat.add_mod_right]
    have h2 : (xs.length - 1) % C < min xs.length C := by
      by_cases hkC : xs.length ≤ C
      · rw [Nat.mod_eq_of_lt (by omega)]; omega
      · have := Nat.mod_lt (xs.length - 1) hC
        omega
    rw [Nat.zero_add, h1, Nat.mod_eq_of_lt h2, hcell _ (by omega) (by omega),
      List.getElem?_append_left (by simp only [List.length_drop]; omega), List.getElem?_drop,
      Nat.add_zero]
  · rw [Do_cell hC (by omega) hi, hcell _ (by omega) (by omega),
      List.getElem?_append_right (by simp only [List.length_drop]; omega),
      List.getElem?_take, if_pos (by simp only [List.length_drop]; omega), List.getElem?_drop]
    congr 1
    simp only [List.length_drop]
    omega

end Utility

namespace Utility

theorem visit_perm {α : Type} (C : Nat) (hC : 0 < C) (xs : List α) :
    (xs.drop (xs.length - 1)
      ++ (xs.drop (xs.length - min xs.length C)).take (min xs.length C - 1)).Perm
      (xs.drop (xs.length - min xs.length C)) := by
  by_cases hk : xs.length = 0
  · have : xs = [] := List.length_eq_zero.mp hk
    subst this
    simp
  · have h1 : xs.drop (xs.length - 1)
        = (xs.drop (xs.length - min xs.length C)).drop (min xs.length C - 1) := by
      rw [List.drop_drop]
      congr 1
      omega
    rw [h1]
    have := List.take_append_drop (min xs.length C - 1) (xs.drop (xs.length - min xs.length C))
    exact List.perm_append_comm.trans (by rw [this])

theorem drop_range (n a : Nat) (h : a ≤ n) : (List.range n).drop a = List.range' a (n - a) := by
  have h1 : List.range n = List.range' 0 a ++ List.range' a (n - a) := by
    rw [List.range_eq_range']
    have := List.range'_append 0 a (n - a) 1
    rw [Nat.zero_add, Nat.one_mul] at this
    rw [this]
    congr 1
    omega
  rw [h1, List.drop_left' (by simp)]

end Utility

namespace Predict

open Utility

/-- Training every window of a duplicate-free list of addresses: each listed
window is trained once, the others are left as they are. -/
theorem foldlM_trainAt (tok : List String) :
    ∀ (l : List Nat) (heap : List Window), l.Nodup → (∀ a ∈ l, a < heap.length) →
      ∃ heap', (l.map some).foldlM (trainAt tok) heap = some heap' ∧
        heap'.length = heap.length ∧
        ∀ i : Nat, heap'[i]? = if i ∈ l
          then (heap[i]?).map (fun w => { w with State := w.State.Add tok }) else heap[i]? := by
  intro l
  induction l with
  | nil => intro heap _ _; exact ⟨heap, rfl, rfl, fun i => by simp⟩
  | cons a l ih =>
    intro heap hnd hlt
    obtain ⟨hal, hnd'⟩ := List.nodup_cons.mp hnd
    have ha : a < heap.length := hlt a (List.mem_cons_self _ _)
    obtain ⟨heap', hrun, hlen, hget⟩ := ih
      (heap.set a { heap[a] with State := heap[a].State.Add tok }) hnd'
      (fun b hb => by rw [List.length_set]; exact hlt b (List.mem_cons_of_mem _ hb))
    refine ⟨heap', ?_, by rw [hlen, List.length_set], ?_⟩
    · rw [List.map_cons, List.foldlM_cons]
      have : trainAt tok heap (some a)
          = some (heap.set a { heap[a] with State := heap[a].State.Add tok }) := by
        unfold trainAt
        simp only [List.getElem?_eq_getElem ha]
      rw [this]
      exact hrun
    · intro i
      rw [hget i]
      by_cases hia : i = a
      · subst hia
        rw [if_neg hal, if_pos (List.mem_cons_self _ _), List.getElem?_set_self ha,
          List.getElem?_eq_getElem ha]
        rfl
      · have hne : a ≠ i := fun e => hia e.symm
        rw [List.getElem?_set_ne hne]
        by_cases hil : i ∈ l
        · rw [if_pos hil, if_pos (List.mem_cons_of_mem _ hil)]
        · rw [if_neg hil, if_neg (by simp [hia, hil])]

theorem WQInv_new (D N : Nat) : WQInv D N [] (NewWindowQ D N) :=
  ⟨rfl, QInv_new D, rfl, fun i t h => by simp at h⟩

/-- One call of `PushWindow` from a reachable state: the addresses visited by
the training step are a rearrangement of the resident ones, and exactly the
windows at these addresses are trained on the new transcript. -/
theorem PushWindow_step {D N : Nat} (hD : 0 < D) {ts : List (List String)} {wq : WindowQ}
    (h : WQInv D N ts wq) (tok : List String) :
    ∃ (wq' : WindowQ) (vs : List (Option Nat)), wq.PushWindow tok = some wq' ∧
      WQInv D N (ts ++ [tok]) wq' ∧ wq'.q.Do = some vs ∧
      vs.Perm ((List.range' (ts.length + 1 - min (ts.length + 1) D)
        (min (ts.length + 1) D)).map some) ∧
      wq'.heap.length = ts.length + 1 ∧
      ∀ i : Nat, wq'.heap[i]? =
        if ts.length + 1 ≤ i + D ∧ i < ts.length + 1
        then ((wq.heap ++ [⟨tok, NewChain N⟩])[i]?).map
          (fun w => { w with State := w.State.Add tok })
        else (wq.heap ++ [⟨tok, NewChain N⟩])[i]? := by
  obtain ⟨hngram, hq, hheap, hwin⟩ := h
  obtain ⟨q1, hpush, hq1⟩ := Push_inv hD hq (some ts.length)
  have hps : (List.range ts.length).map some ++ [some ts.length]
      = (List.range (ts.length + 1)).map some := by
    rw [List.range_succ, List.map_append]; rfl
  rw [hps] at hq1
  have hdo := Do_visits hD hq1
  simp only [List.length_map, List.length_range, ← List.map_drop, ← List.map_take,
    ← List.map_append, Nat.add_sub_cancel] at hdo
  have hsub : ts.length + 1 - (ts.length + 1 - min (ts.length + 1) D)
      = min (ts.length + 1) D := by omega
  have hR : (List.range (ts.length + 1)).drop (ts.length + 1 - min (ts.length + 1) D)
      = List.range' (ts.length + 1 - min (ts.length + 1) D) (min (ts.length + 1) D) := by
    rw [drop_range _ _ (by omega), hsub]
  have hperm0 := visit_perm D hD (List.range (ts.length + 1))
  simp only [List.length_range, Nat.add_sub_cancel] at hperm0
  have hperm := hperm0.trans (List.Perm.of_eq hR)
  have hnd := (hperm.nodup_iff).mpr (List.nodup_range' _ _)
  have hmem : ∀ a : Nat, a ∈ (List.drop ts.length (List.range (ts.length + 1)) ++
      List.take (min (ts.length + 1) D - 1)
        (List.drop (ts.length + 1 - min (ts.length + 1) D) (List.range (ts.length + 1))))
      ↔ (ts.length + 1 ≤ a + D ∧ a < ts.length + 1) := by
    intro a
    rw [hperm.mem_iff, List.mem_range'_1]
    omega
  obtain ⟨heap2, hfold, hlen2, hget2⟩ := foldlM_trainAt tok _
    (wq.heap ++ [⟨tok, NewChain wq.ngram⟩]) hnd
    (fun a ha => by
      rw [List.length_append, List.length_singleton, hheap]
      exact ((hmem a).mp ha).2)
  have hrun : wq.PushWindow tok = some { wq with q := q1, heap := heap2 } := by
    unfold WindowQ.PushWindow
    rw [hheap, hpush]
    simp only [Option.bind_eq_bind, Option.some_bind]
    rw [hdo]
    simp only [Option.some_bind]
    rw [hfold]
    rfl
  rw [hngram] at hget2
  have hlen3 : heap2.length = ts.length + 1 := by
    rw [hlen2, List.length_append, List.length_singleton, hheap]
  have hget3 : ∀ i : Nat, heap2[i]? =
      if ts.length + 1 ≤ i + D ∧ i < ts.length + 1
      then ((wq.heap ++ [⟨tok, NewChain N⟩])[i]?).map
        (fun w => { w with State := w.State.Add tok })
      else (wq.heap ++ [⟨tok, NewChain N⟩])[i]? := by
    intro i
    rw [hget2 i]
    by_cases hi : ts.length + 1 ≤ i + D ∧ i < ts.length + 1
    · rw [if_pos hi, if_pos ((hmem i).mpr hi)]
    · rw [if_neg hi, if_neg (fun hm => hi ((hmem i).mp hm))]
  refine ⟨_, _, hrun, ⟨hngram, ?_, ?_, ?_⟩, hdo, hperm.map some, hlen3, hget3⟩
  · rw [List.length_append, List.length_singleton]; exact hq1
  · rw [List.length_append, List.length_singleton]; exact hlen3
  · intro i t hit
    dsimp only
    rw [hget3 i]
    have hi : i < ts.length + 1 := by
      have := (List.getElem?_eq_some_iff.mp hit).1
      rwa [List.length_append, List.length_singleton] at this
    by_cases hik : i = ts.length
    · subst hik
      rw [List.getElem?_append_right (Nat.le_refl _), Nat.sub_self] at hit
      have ht : t = tok := by simpa using hit.symm
      subst ht
      rw [if_pos ⟨by omega, by omega⟩, List.getElem?_append_right (by omega), hheap,
        Nat.sub_self, List.drop_left]
      simp only [List.getElem?_cons_zero, Option.map_some', NewChain, Chain.Add,
        List.nil_append]
      rw [List.take_of_length_le (by simpa using hD)]
    · have hi2 : i < ts.length := by omega
      rw [List.getElem?_append_left hi2] at hit
      rw [List.getElem?_append_left (by omega), hwin i t hit,
        List.drop_append_of_le_length (by omega)]
      by_cases hres : ts.length + 1 ≤ i + D
      · rw [if_pos ⟨hres, hi⟩]
        simp only [Option.map_some', Chain.Add]
        have h1 : (ts.drop i).take D = ts.drop i :=
          List.take_of_length_le (by rw [List.length_drop]; omega)
        have h2 : (ts.drop i ++ [tok]).take D = ts.drop i ++ [tok] :=
          List.take_of_length_le (by
            rw [List.length_append, List.length_drop, List.length_singleton]; omega)
        rw [h1, h2]
      · rw [if_neg (fun hc => hres hc.1),
          List.take_append_of_le_length (by rw [List.length_drop]; omega)]

theorem WQ_pushAll_inv {D N : Nat} (hD : 0 < D) (ts : List (List String)) :
    ∃ wq, (NewWindowQ D N).pushAll ts = some wq ∧ WQInv D N ts wq := by
  induction ts using List.reverseRecOn with
  | nil => exact ⟨_, rfl, WQInv_new D N⟩
  | append_singleton ts tok ih =>
    obtain ⟨wq, hwq, hinv⟩ := ih
    obtain ⟨wq', _, hrun, hinv', _⟩ := PushWindow_step hD hinv tok
    refine ⟨wq', ?_, hinv'⟩
    unfold WindowQ.pushAll at hwq ⊢
    rw [List.foldlM_append, hwq]
    simpa using hrun

end Predict

namespace Utility

/-- C5. For every capacity C ≥ 1 and every sequence of k ≥ 1 pushes onto a new
queue, Len() = min(k, C) (so never more than C), Full() holds iff k ≥ C, and
Peek() returns the last pushed element. -/
theorem queue_len_full_peek {α : Type} [Inhabited α] (C : Nat) (hC : 1 ≤ C) (xs : List α)
    (hxs : xs ≠ []) :
    ∃ q : Queue α, (NewQueue C).pushAll xs = some q ∧
      q.Len = min xs.length C ∧ q.Len ≤ C ∧ (q.Full = true ↔ C ≤ xs.length) ∧
      q.Peek = xs.getLast? := by
  obtain ⟨q, hq, hcap, hlen, hhead, hcell⟩ := pushAll_inv hC xs
  have hk : 0 < xs.length := List.length_pos.mpr hxs
  refine ⟨q, hq, hlen, by unfold Queue.Len; omega, ?_, ?_⟩
  · unfold Queue.Full Queue.Len Queue.Cap
    rw [decide_eq_true_eq, hlen, hcap]
    omega
  · unfold Queue.Peek
    have h1 : (xs.length + C - 1) % C = (xs.length - 1) % C := by
      have : xs.length + C - 1 = (xs.length - 1) + C := by omega
      rw [this, Nat.add_mod_right]
    rw [hhead, h1, hcell _ (by omega) (by omega), List.getLast?_eq_getElem?]

/-- C5, instance: five pushes onto a queue of capacity 3. -/
theorem queue_len_full_peek_witness :
    1 ≤ 3 ∧ ([1, 2, 3, 4, 5] : List Nat) ≠ [] ∧
    ∃ q : Queue Nat, (NewQueue 3).pushAll [1, 2, 3, 4, 5] = some q ∧
      q.Len = min ([1, 2, 3, 4, 5] : List Nat).length 3 ∧ q.Len ≤ 3 ∧
      (q.Full = true ↔ 3 ≤ ([1, 2, 3, 4, 5] : List Nat).length) ∧
      q.Peek = ([1, 2, 3, 4, 5] : List Nat).getLast? :=
  ⟨by decide, by decide, queue_len_full_peek 3 (by decide) [1, 2, 3, 4, 5] (by decide)⟩

/-- C7, the code at a failing input: after the pushes 1 2 3 onto a queue of
capacity 3, `Do` calls fn on 3, then 1, then 2 (the newest element first), not
on 1 2 3; before the queue is full, after the pushes 1 2, it calls fn on 2 then 1. -/
theorem queue_do_order_eval :
    ((NewQueue 3 : Queue Nat).pushAll [1, 2, 3]).bind Queue.Do = some [3, 1, 2] ∧
    ((NewQueue 3 : Queue Nat).pushAll [1, 2]).bind Queue.Do = some [2, 1] :=
  ⟨by decide, by decide⟩

end Utility

namespace Predict

open Utility

/-- C6. For every capacity C ≥ 1 and every k pushes onto a new queue, `Do` calls
fn min(k, C) times, and the elements it is called on are a rearrangement of the
min(k, C) most recently pushed ones (each exactly once, nothing else).
Consequently a call of `PushWindow` on a window queue of depth C that received
the transcripts ts trains exactly the resident windows: `Do` visits a
rearrangement of the addresses of the min(k+1, C) newest windows; the new
window holds a chain trained on the new transcript only; every older resident
window has the new transcript added once to its chain; evicted windows are
left as they were. -/
theorem queue_do_visits_residents_once {α : Type} [Inhabited α] (C : Nat) (hC : 1 ≤ C)
    (xs : List α) (N : Nat) (ts : List (List String)) (tok : List String) :
    (∃ (q : Queue α) (vs : List α), (NewQueue C).pushAll xs = some q ∧ q.Do = some vs ∧
      vs.length = min xs.length C ∧ vs.Perm (xs.drop (xs.length - min xs.length C))) ∧
    (∃ (wq wq2 : WindowQ) (vs : List (Option Nat)),
      (NewWindowQ C N).pushAll ts = some wq ∧ wq.PushWindow tok = some wq2 ∧
      wq2.q.Do = some vs ∧
      vs.Perm ((List.range' (ts.length + 1 - min (ts.length + 1) C)
        (min (ts.length + 1) C)).map some) ∧
      wq2.heap.length = ts.length + 1 ∧
      wq2.heap[ts.length]? = some ⟨tok, (NewChain N).Add tok⟩ ∧
      (∀ (i : Nat) (w : Window), i < ts.length → ts.length < i + C → wq.heap[i]? = some w →
        wq2.heap[i]? = some { w with State := w.State.Add tok }) ∧
      (∀ i : Nat, i + C ≤ ts.length → wq2.heap[i]? = wq.heap[i]?)) := by
  constructor
  · obtain ⟨q, hq, hinv⟩ := pushAll_inv hC xs
    have hdo := Do_visits hC hinv
    have hperm := visit_perm C hC xs
    refine ⟨q, _, hq, hdo, ?_, hperm⟩
    rw [hperm.length_eq, List.length_drop]
    omega
  · obtain ⟨wq, hwq, hinv⟩ := @WQ_pushAll_inv C N hC ts
    obtain ⟨wq2, vs, hrun, _, hdo, hperm, hlen, hget⟩ := PushWindow_step hC hinv tok
    have hheap := hinv.hheap
    refine ⟨wq, wq2, vs, hwq, hrun, hdo, hperm, hlen, ?_, ?_, ?_⟩
    · rw [hget, if_pos ⟨by omega, by omega⟩, List.getElem?_append_right (by omega), hheap,
        Nat.sub_self]
      rfl
    · intro i w hi hres hw
      rw [hget, if_pos ⟨by omega, by omega⟩, List.getElem?_append_left (by omega), hw]
      rfl
    · intro i hi
      rw [hget, if_neg (by omega), List.getElem?_append_left (by omega)]

/-- C6, instance: capacity 2, the pushes 1 2 3, and the transcripts a, b
followed by the new transcript c. -/
theorem queue_do_visits_residents_once_witness :
    1 ≤ 2 ∧
    ((∃ (q : Queue Nat) (vs : List Nat), (NewQueue 2).pushAll [1, 2, 3] = some q ∧
      q.Do = some vs ∧ vs.length = min ([1, 2, 3] : List Nat).length 2 ∧
      vs.Perm (([1, 2, 3] : List Nat).drop
        (([1, 2, 3] : List Nat).length - min ([1, 2, 3] : List Nat).length 2))) ∧
    (∃ (wq wq2 : WindowQ) (vs : List (Option Nat)),
      (NewWindowQ 2 3).pushAll [["a"], ["b"]] = some wq ∧ wq.PushWindow ["c"] = some wq2 ∧
      wq2.q.Do = some vs ∧
      vs.Perm ((List.range' (([["a"], ["b"]] : List (List String)).length + 1
          - min (([["a"], ["b"]] : List (List String)).length + 1) 2)
        (min (([["a"], ["b"]] : List (List String)).length + 1) 2)).map some) ∧
      wq2.heap.length = ([["a"], ["b"]] : List (List String)).length + 1 ∧
      wq2.heap[([["a"], ["b"]] : List (List String)).length]?
        = some ⟨["c"], (NewChain 3).Add ["c"]⟩ ∧
      (∀ (i : Nat) (w : Window), i < ([["a"], ["b"]] : List (List String)).length →
        ([["a"], ["b"]] : List (List String)).length < i + 2 → wq.heap[i]? = some w →
        wq2.heap[i]? = some { w with State := w.State.Add ["c"] }) ∧
      (∀ i : Nat, i + 2 ≤ ([["a"], ["b"]] : List (List String)).length →
        wq2.heap[i]? = wq.heap[i]?))) :=
  ⟨by decide, queue_do_visits_residents_once 2 (by decide) [1, 2, 3] 3 [["a"], ["b"]] ["c"]⟩

end Predict

namespace Predict

/-- The inner loop computes the distance score of the spec whenever every index
`i + j` it reads is below `len(tokens)`. -/
theorem offsetDistance_eq (term tokens : List String) (i : Int)
    (hi : ∀ j : Nat, j < term.length → i + j < tokens.length) :
    offsetDistance term tokens i = some (specDistance term tokens i) := by
  unfold offsetDistance specDistance
  have key : ∀ J : Nat, J ≤ term.length →
      (List.range J).foldlM (fun (distance : Int) (j : Nat) =>
        if i + (j : Int) < 0 then some (distance + uncertaintyPenalty)
        else
          match term[j]?, tokens[(i + (j : Int)).toNat]? with
          | some a, some b => some (distance + LevenshteinDistance a b)
          | _, _ => none) 0
      = some (((List.range J).map (fun (j : Nat) =>
          if i + (j : Int) < 0 then uncertaintyPenalty
          else LevenshteinDistance (term.getD j "") (tokens.getD (i + (j : Int)).toNat ""))).sum) := by
    intro J
    induction J with
    | zero => intro _; rfl
    | succ J ih =>
      intro hJ
      rw [List.range_succ, List.foldlM_append, ih (by omega), List.map_append, List.sum_append]
      simp only [Option.bind_eq_bind, Option.some_bind, List.foldlM_cons, List.foldlM_nil,
        List.map_cons, List.map_nil, List.sum_cons, List.sum_nil, add_zero]
      by_cases hneg : i + (J : Int) < 0
      · simp only [if_pos hneg]
        rfl
      · have h1 : J < term.length := by omega
        have h2 : (i + (J : Int)).toNat < tokens.length := by
          have := hi J h1
          omega
        simp only [if_neg hneg, List.getElem?_eq_getElem h1, List.getElem?_eq_getElem h2,
          List.getD_eq_getElem?_getD, Option.getD_some]
        rfl
  exact key term.length (Nat.le_refl _)

theorem specDistance_first (term tokens : List String) :
    specDistance term tokens (-(term.length : Int)) = uncertaintyPenalty * term.length := by
  unfold specDistance
  have : (List.range term.length).map (fun (j : Nat) =>
        if -(term.length : Int) + (j : Int) < 0 then uncertaintyPenalty
        else LevenshteinDistance (term.getD j "")
          (tokens.getD (-(term.length : Int) + (j : Int)).toNat ""))
      = (List.range term.length).map (fun _ => uncertaintyPenalty) := by
    apply List.map_congr_left
    intro j hj
    have := List.mem_range.mp hj
    rw [if_pos (by omega)]
  rw [this]
  simp [mul_comm]

theorem offset_in_bounds (term tokens : List String) (t : Nat) (ht : t < tokens.length) :
    ∀ j : Nat, j < term.length → -(term.length : Int) + t + j < tokens.length := by
  intro j hj
  omega

/-- Invariant of the outer loop of `fuzzySearch` after `T ≥ 1` iterations: the
pair holds the first offset of least distance among those tried. -/
theorem search_inv (term tokens : List String)
    (hsize : uncertaintyPenalty * (term.length : Int) < maxInt) :
    ∀ T : Nat, 0 < T → T ≤ tokens.length →
      ∃ tstar : Nat, tstar < T ∧
        (List.range T).foldlM
          (fun (st : Int × Int) (t : Nat) =>
            searchStep term tokens st (-(term.length : Int) + t)) (0, maxInt)
          = some (-(term.length : Int) + tstar,
              specDistance term tokens (-(term.length : Int) + tstar)) ∧
        (∀ t : Nat, t < T → specDistance term tokens (-(term.length : Int) + tstar)
          ≤ specDistance term tokens (-(term.length : Int) + t)) ∧
        (∀ t : Nat, t < tstar → specDistance term tokens (-(term.length : Int) + tstar)
          < specDistance term tokens (-(term.length : Int) + t)) := by
  intro T
  induction T with
  | zero => intro h; omega
  | succ T ih =>
    intro _ hT
    have hoff := offsetDistance_eq term tokens (-(term.length : Int) + T)
      (offset_in_bounds term tokens T (by omega))
    by_cases hT0 : T = 0
    · subst hT0
      refine ⟨0, by omega, ?_, ?_, ?_⟩
      · simp only [List.range_succ, List.range_zero, List.nil_append, List.foldlM_cons,
          List.foldlM_nil]
        unfold searchStep
        rw [hoff]
        have h1 : specDistance term tokens (-(term.length : Int) + ((0 : Nat) : Int)) < maxInt := by
          have := specDistance_first term tokens
          simp only [Nat.cast_zero, add_zero]
          rw [this]; exact hsize
        simp only [Option.bind_eq_bind, Option.some_bind, if_pos h1]
        rfl
      · intro t ht
        have : t = 0 := by omega
        subst this
        exact le_refl _
      · intro t ht; omega
    · obtain ⟨ts, hts, hrun, hmin, hfirst⟩ := ih (by omega) (by omega)
      rw [List.range_succ, List.foldlM_append, hrun]
      simp only [Option.bind_eq_bind, Option.some_bind, List.foldlM_cons, List.foldlM_nil]
      unfold searchStep
      rw [hoff]
      dsimp only
      by_cases hlt : specDistance term tokens (-(term.length : Int) + T)
          < specDistance term tokens (-(term.length : Int) + ts)
      · refine ⟨T, by omega, by rw [if_pos hlt]; rfl, ?_, ?_⟩
        · intro t ht
          by_cases htT : t = T
          · subst htT; exact le_refl _
          · exact le_of_lt (lt_of_lt_of_le hlt (hmin t (by omega)))
        · intro t ht
          exact lt_of_lt_of_le hlt (hmin t ht)
      · refine ⟨ts, by omega, by rw [if_neg hlt]; rfl, ?_, hfirst⟩
        intro t ht
        by_cases htT : t = T
        · subst htT; exact not_lt.mp hlt
        · exact hmin t (by omega)

end Predict

namespace Predict

/-- C8. For every term and every non-empty token list, `fuzzySearch` returns
the smallest offset i with -len(term) ≤ i < len(tokens) - len(term) that
minimizes the distance score of the spec; ties go to the lowest i. The
hypothesis `hsize` says that the first distance computed, 5 * len(term), is
below `math.MaxInt`, which holds for every Go slice (fewer than 2^59 strings). -/
theorem fuzzySearch_minimizes (term tokens : List String) (hne : tokens ≠ [])
    (hsize : uncertaintyPenalty * (term.length : Int) < maxInt) :
    ∃ i : Int, fuzzySearch term tokens = some i ∧
      -(term.length : Int) ≤ i ∧ i < (tokens.length : Int) - term.length ∧
      (∀ i2 : Int, -(term.length : Int) ≤ i2 → i2 < (tokens.length : Int) - term.length →
        specDistance term tokens i ≤ specDistance term tokens i2) ∧
      (∀ i2 : Int, -(term.length : Int) ≤ i2 → i2 < i →
        specDistance term tokens i < specDistance term tokens i2) := by
  have hlen : 0 < tokens.length := List.length_pos.mpr hne
  obtain ⟨ts, hts, hrun, hmin, hfirst⟩ :=
    search_inv term tokens hsize tokens.length hlen (Nat.le_refl _)
  refine ⟨-(term.length : Int) + ts, ?_, by omega, by omega, ?_, ?_⟩
  · unfold fuzzySearch
    rw [hrun]
    rfl
  · intro i2 h1 h2
    have h := hmin (i2 + term.length).toNat (by omega)
    have e : -(term.length : Int) + ((i2 + term.length).toNat : Int) = i2 := by omega
    rw [e] at h
    exact h
  · intro i2 h1 h2
    have h := hfirst (i2 + term.length).toNat (by omega)
    have e : -(term.length : Int) + ((i2 + term.length).toNat : Int) = i2 := by omega
    rw [e] at h
    exact h

/-- C8, instance: the term b c in the window a b c d is found at offset 1. -/
theorem fuzzySearch_minimizes_witness :
    ["a", "b", "c", "d"] ≠ [] ∧
    uncertaintyPenalty * ((["b", "c"] : List String).length : Int) < maxInt ∧
    fuzzySearch ["b", "c"] ["a", "b", "c", "d"] = some 1 ∧
    ∃ i : Int, fuzzySearch ["b", "c"] ["a", "b", "c", "d"] = some i ∧
      -((["b", "c"] : List String).length : Int) ≤ i ∧
      i < ((["a", "b", "c", "d"] : List String).length : Int)
        - (["b", "c"] : List String).length ∧
      (∀ i2 : Int, -((["b", "c"] : List String).length : Int) ≤ i2 →
        i2 < ((["a", "b", "c", "d"] : List String).length : Int)
          - (["b", "c"] : List String).length →
        specDistance ["b", "c"] ["a", "b", "c", "d"] i
          ≤ specDistance ["b", "c"] ["a", "b", "c", "d"] i2) ∧
      (∀ i2 : Int, -((["b", "c"] : List String).length : Int) ≤ i2 → i2 < i →
        specDistance ["b", "c"] ["a", "b", "c", "d"] i
          < specDistance ["b", "c"] ["a", "b", "c", "d"] i2) :=
  ⟨by decide, by decide, by decide,
    fuzzySearch_minimizes ["b", "c"] ["a", "b", "c", "d"] (by decide) (by decide)⟩

/-- C9, the code at a failing input: `fuzzySearch(X, X)` for X = [a] returns -1,
not 0, because the loop stops before the offset len(tokens) - len(term) = 0;
likewise for X = [a, b]. -/
theorem fuzzySearch_self_eval :
    fuzzySearch ["a"] ["a"] = some (-1) ∧ fuzzySearch ["a", "b"] ["a", "b"] = some (-1) :=
  ⟨by decide, by decide⟩

/-- C10. `fuzzySearch` of the term tampa atlanta chicago in the window atlanta
chicago newyork returns -1. -/
theorem fuzzySearch_example :
    fuzzySearch ["tampa", "atlanta", "chicago"] ["atlanta", "chicago", "newyork"]
      = some (-1) := by
  decide

end Predict

namespace Predict

/-- The outer loop of `fuzzySearch` never panics: every index it reads is in range. -/
theorem search_total (term tokens : List String) (st0 : Int × Int) :
    ∀ T : Nat, T ≤ tokens.length →
      ∃ st : Int × Int, (List.range T).foldlM
        (fun (st : Int × Int) (t : Nat) =>
          searchStep term tokens st (-(term.length : Int) + t)) st0 = some st := by
  intro T
  induction T with
  | zero => intro _; exact ⟨st0, rfl⟩
  | succ T ih =>
    intro hT
    obtain ⟨st, hst⟩ := ih (by omega)
    have hoff := offsetDistance_eq term tokens (-(term.length : Int) + T)
      (offset_in_bounds term tokens T (by omega))
    rw [List.range_succ, List.foldlM_append, hst]
    simp only [Option.bind_eq_bind, Option.some_bind, List.foldlM_cons, List.foldlM_nil]
    unfold searchStep
    rw [hoff]
    dsimp only
    split
    · exact ⟨_, rfl⟩
    · exact ⟨_, rfl⟩

/-- C11. For every term and every non-empty token list, every index
`i + j ≥ 0` the search computes is below len(tokens), the inner loop panics at
no offset tried, `fuzzySearch` returns a result i, and (the first distance
5 * len(term) being below `math.MaxInt`, as for every Go slice)
-len(term) ≤ i < len(tokens) - len(term). -/
theorem fuzzySearch_in_range (term tokens : List String) (hne : tokens ≠ []) :
    (∀ t j : Nat, t < tokens.length → j < term.length →
      0 ≤ -(term.length : Int) + t + j →
      (-(term.length : Int) + t + j).toNat < tokens.length) ∧
    (∀ t : Nat, t < tokens.length →
      offsetDistance term tokens (-(term.length : Int) + t) ≠ none) ∧
    ∃ i : Int, fuzzySearch term tokens = some i ∧
      (uncertaintyPenalty * (term.length : Int) < maxInt →
        -(term.length : Int) ≤ i ∧ i < (tokens.length : Int) - term.length) := by
  refine ⟨fun t j ht hj h0 => by omega, ?_, ?_⟩
  · intro t ht
    rw [offsetDistance_eq term tokens _ (offset_in_bounds term tokens t ht)]
    exact Option.some_ne_none _
  · obtain ⟨st, hst⟩ := search_total term tokens (0, maxInt) tokens.length (Nat.le_refl _)
    refine ⟨st.1, by unfold fuzzySearch; rw [hst]; rfl, ?_⟩
    intro hsize
    have hlen : 0 < tokens.length := List.length_pos.mpr hne
    obtain ⟨ts, hts, hrun, _, _⟩ :=
      search_inv term tokens hsize tokens.length hlen (Nat.le_refl _)
    rw [hrun] at hst
    have : st = (-(term.length : Int) + ts, specDistance term tokens (-(term.length : Int) + ts)) :=
      (Option.some.inj hst).symm
    rw [this]
    dsimp only
    omega

/-- C11, instance: the term a b in the window x a b y. -/
theorem fuzzySearch_in_range_witness :
    ["x", "a", "b", "y"] ≠ [] ∧
    ((∀ t j : Nat, t < (["x", "a", "b", "y"] : List String).length →
      j < (["a", "b"] : List String).length →
      0 ≤ -((["a", "b"] : List String).length : Int) + t + j →
      (-((["a", "b"] : List String).length : Int) + t + j).toNat
        < (["x", "a", "b", "y"] : List String).length) ∧
    (∀ t : Nat, t < (["x", "a", "b", "y"] : List String).length →
      offsetDistance ["a", "b"] ["x", "a", "b", "y"]
        (-((["a", "b"] : List String).length : Int) + t) ≠ none) ∧
    ∃ i : Int, fuzzySearch ["a", "b"] ["x", "a", "b", "y"] = some i ∧
      (uncertaintyPenalty * ((["a", "b"] : List String).length : Int) < maxInt →
        -((["a", "b"] : List String).length : Int) ≤ i ∧
        i < ((["x", "a", "b", "y"] : List String).length : Int)
          - (["a", "b"] : List String).length)) :=
  ⟨by decide, fuzzySearch_in_range ["a", "b"] ["x", "a", "b", "y"] (by decide)⟩

/-- The result of `fuzzySearch` on a non-empty window lies below
len(tokens) - len(term). -/
theorem fuzzySearch_lt (term tokens : List String) (hne : tokens ≠ [])
    (hsize : uncertaintyPenalty * (term.length : Int) < maxInt) :
    ∃ i : Int, fuzzySearch term tokens = some i ∧ i + term.length < tokens.length := by
  have hlen : 0 < tokens.length := List.length_pos.mpr hne
  obtain ⟨ts, hts, hrun, _, _⟩ :=
    search_inv term tokens hsize tokens.length hlen (Nat.le_refl _)
  refine ⟨-(term.length : Int) + ts, by unfold fuzzySearch; rw [hrun]; rfl, by omega⟩

/-- C18, refuted: there are no emitted buffer E (of a length a Go slice can
have) and non-empty window T with fuzzySearch(E, T) + len(E) > len(T). -/
theorem progress_exceeds_counterexample :
    ¬ ∃ (E T : List String) (i : Int), T ≠ [] ∧
      uncertaintyPenalty * (E.length : Int) < maxInt ∧
      fuzzySearch E T = some i ∧ i + E.length > T.length := by
  rintro ⟨E, T, i, hne, hsize, hi, hgt⟩
  obtain ⟨i2, hi2, hlt⟩ := fuzzySearch_lt E T hne hsize
  rw [hi] at hi2
  have : i = i2 := Option.some.inj hi2
  omega

/-- C18, amended. For every emitted buffer E and every non-empty window T,
`fuzzySearch` returns and fuzzySearch(E, T) + len(E) ≤ len(T): the progress of
the emitter never exceeds 1.0. -/
theorem progress_at_most_one (E T : List String) (hne : T ≠ [])
    (hsize : uncertaintyPenalty * (E.length : Int) < maxInt) :
    ∃ i : Int, fuzzySearch E T = some i ∧ i + E.length ≤ T.length := by
  obtain ⟨i, hi, hlt⟩ := fuzzySearch_lt E T hne hsize
  exact ⟨i, hi, Int.le_of_lt hlt⟩

/-- C18 amended, instance: the buffer c d against the window a b c d. -/
theorem progress_at_most_one_witness :
    ["a", "b", "c", "d"] ≠ [] ∧
    uncertaintyPenalty * ((["c", "d"] : List String).length : Int) < maxInt ∧
    ∃ i : Int, fuzzySearch ["c", "d"] ["a", "b", "c", "d"] = some i ∧
      i + (["c", "d"] : List String).length ≤ (["a", "b", "c", "d"] : List String).length :=
  ⟨by decide, by decide,
    progress_at_most_one ["c", "d"] ["a", "b", "c", "d"] (by decide) (by decide)⟩

end Predict

namespace Predict
open Utility

/-- C12, the code at a failing input: the transcript "a ." is sanitized to
"a " (the white space is trimmed before the punctuation is removed), which is
not empty, and is cut into the tokens "a" and "". -/
theorem sanitize_empty_token_eval :
    sanitize "a ." = "a " ∧ sanitize "a ." ≠ "" ∧ tokenize (sanitize "a .") = ["a", ""] :=
  ⟨by decide, by decide, by decide⟩

/-- C16, the code at a failing input: with depth 1 and order 4, after the
transcript "a" the emitter holds emitted = [a]; on the transcript "x a y z"
the alignment is idx = 1, the chain does not know the padded prefix, and the
slice tokens[1:5] of the recovery leaves the window: `Do` panics. -/
theorem recovery_slice_eval :
    ((NewEmitter exactEnv 1 4).Do ["a"]).map (fun p => (p.1.e.emitted, p.1.out, p.2))
      = some (["a"], ["a"], false) ∧
    fuzzySearch ["a"] ["x", "a", "y", "z"] = some 1 ∧
    ((NewEmitter exactEnv 1 4).Do ["a", "x a y z"]).isNone = true :=
  ⟨by decide, by decide, by decide⟩

/-- C15, as stated, fails: with depth 1 and order 2, the transcripts "a b" and
"c d e f" deliver a, b, e to the sink, while the recovery on the second
transcript overwrites emitted with [c, d]; at the end emitted = [d, e] and the
last two tokens delivered are b, e. -/
theorem emitted_sink_counterexample :
    ((NewEmitter exactEnv 1 2).Do ["a b", "c d e f"]).map
        (fun p => (p.1.e.emitted, p.1.out, p.1.overwrites, p.2))
      = some (["d", "e"], ["a", "b", "e"], 1, false) ∧
    (["a", "b", "e"] : List String).drop ((["a", "b", "e"] : List String).length - min 3 2)
      ≠ ["d", "e"] :=
  ⟨by decide, by decide⟩

end Predict

namespace Predict
open Utility

/-- After a history of pushes that ends with the transcript `tok`, `PredictNext`
consults a chain trained on `tok` only. -/
theorem PredictNext_newest (env : Env) {D N : Nat} (hD : 0 < D) {ts : List (List String)}
    {tok : List String} {wq : WindowQ} (h : WQInv D N (ts ++ [tok]) wq) (pre : List String) :
    wq.PredictNext env pre = some (env.generate ((NewChain N).Add tok) pre) := by
  obtain ⟨_, ⟨hcap, _, hhead, hcell⟩, _, hwin⟩ := h
  simp only [List.length_map, List.length_range, List.length_append, List.length_singleton]
    at hhead hcell
  have hh : wq.q.head = ts.length % D := by
    rw [hhead]
    have : ts.length + 1 + D - 1 = ts.length + D := by omega
    rw [this, Nat.add_mod_right]
  have hpeek : wq.q.Peek = some (some ts.length) := by
    unfold Queue.Peek
    rw [hh, hcell ts.length (by omega) (by omega), List.getElem?_map,
      List.getElem?_range (by omega)]
    rfl
  have hw := hwin ts.length tok (by simp)
  unfold WindowQ.PredictNext
  rw [hpeek]
  dsimp only
  rw [hw]
  dsimp only
  have : (List.drop ts.length (ts ++ [tok])).take D = [tok] := by
    rw [List.drop_left]
    exact List.take_of_length_le (by simpa using hD)
  rw [this]
  rfl

/-- C20. After `PushWindow(tokens)` the chain `PredictNext` consults is the
chain of the newest window, trained on `tokens` once and on nothing else; so
for every prefix `PredictNext` returns the same result after any two push
histories, of any depths D1, D2 ≥ 1, that end with the same transcript. -/
theorem predictNext_newest_only (env : Env) (D1 D2 N : Nat) (hD1 : 1 ≤ D1) (hD2 : 1 ≤ D2)
    (ts1 ts2 : List (List String)) (tokens pre : List String) :
    ∃ wq1 wq2 : WindowQ,
      (NewWindowQ D1 N).pushAll (ts1 ++ [tokens]) = some wq1 ∧
      (NewWindowQ D2 N).pushAll (ts2 ++ [tokens]) = some wq2 ∧
      wq1.PredictNext env pre = some (env.generate ((NewChain N).Add tokens) pre) ∧
      wq2.PredictNext env pre = wq1.PredictNext env pre := by
  obtain ⟨wq1, h1, hinv1⟩ := @WQ_pushAll_inv D1 N hD1 (ts1 ++ [tokens])
  obtain ⟨wq2, h2, hinv2⟩ := @WQ_pushAll_inv D2 N hD2 (ts2 ++ [tokens])
  refine ⟨wq1, wq2, h1, h2, PredictNext_newest env hD1 hinv1 pre, ?_⟩
  rw [PredictNext_newest env hD1 hinv1 pre, PredictNext_newest env hD2 hinv2 pre]

/-- C20, instance: depth 1 after the transcripts x, a b and depth 3 after a b alone. -/
theorem predictNext_newest_only_witness :
    1 ≤ 1 ∧ 1 ≤ 3 ∧
    ∃ wq1 wq2 : WindowQ,
      (NewWindowQ 1 2).pushAll ([["x"]] ++ [["a", "b"]]) = some wq1 ∧
      (NewWindowQ 3 2).pushAll ([] ++ [["a", "b"]]) = some wq2 ∧
      wq1.PredictNext exactEnv ["$", "a"]
        = some (exactEnv.generate ((NewChain 2).Add ["a", "b"]) ["$", "a"]) ∧
      wq2.PredictNext exactEnv ["$", "a"] = wq1.PredictNext exactEnv ["$", "a"] :=
  ⟨by decide, by decide,
    predictNext_newest_only exactEnv 1 3 2 (by decide) (by decide) [["x"]] [] ["a", "b"]
      ["$", "a"]⟩

/-- While fewer than `D` transcripts have been pushed, an iteration of `Do`
pushes at most one window and sends nothing. -/
theorem doLoop_warmup (env : Env) {D N : Nat} (hD : 0 < D) :
    ∀ (inCh : List String) (r : Run env) (ts : List (List String)),
      WQInv D N ts r.e.q → r.out = [] →
      ts.length + (inCh.filter (fun w => sanitize w ≠ "")).length < D →
      ∃ r2 : Run env, doLoop r inCh = some (r2, false) ∧ r2.out = [] := by
  intro inCh
  induction inCh with
  | nil => intro r ts _ hout _; exact ⟨r, rfl, hout⟩
  | cons w rest ih =>
    intro r ts hinv hout hcount
    by_cases hw : sanitize w = ""
    · have hstep : doWindow r w = some (r, false) := by
        unfold doWindow
        rw [if_pos hw]
      have hc : ts.length + (rest.filter (fun w => sanitize w ≠ "")).length < D := by
        rw [List.filter_cons_of_neg (by simpa using hw)] at hcount
        exact hcount
      obtain ⟨r2, hr2, ho2⟩ := ih r ts hinv hout hc
      refine ⟨r2, ?_, ho2⟩
      unfold doLoop
      rw [hstep]
      exact hr2
    · rw [List.filter_cons_of_pos (by simpa using hw), List.length_cons] at hcount
      obtain ⟨wq2, _, hpush, hinv2, _⟩ := PushWindow_step hD hinv (tokenize (sanitize w))
      have hfull : wq2.q.Full = false := by
        obtain ⟨_, ⟨hcap, hlen, _, _⟩, _, _⟩ := hinv2
        unfold Queue.Full Queue.Len Queue.Cap
        rw [hcap, hlen]
        simp only [List.length_map, List.length_range, List.length_append,
          List.length_singleton, decide_eq_false_iff_not]
        omega
      have hstep : ∃ r1 : Run env, doWindow r w = some (r1, false) ∧ r1.out = [] ∧
          r1.e.q = wq2 := by
        unfold doWindow
        rw [if_neg hw, hpush]
        dsimp only
        rw [hfull]
        exact ⟨_, rfl, hout, rfl⟩
      obtain ⟨r1, hr1, ho1, hq1⟩ := hstep
      have hinv1 : WQInv D N (ts ++ [tokenize (sanitize w)]) r1.e.q := by rw [hq1]; exact hinv2
      obtain ⟨r2, hr2, ho2⟩ := ih r1 _ hinv1 ho1
        (by rw [List.length_append, List.length_singleton]; omega)
      refine ⟨r2, ?_, ho2⟩
      unfold doLoop
      rw [hr1]
      exact hr2

/-- C13. Warm-up: for every depth D ≥ 1, order N ≥ 1 and every sequence of
transcripts of which fewer than D sanitize to a non-empty string, `Emitter.Do`
returns without error and has sent no token to the sink, whatever the
arithmetic and the chain. -/
theorem emitter_warmup (env : Env) (D N : Nat) (hD : 1 ≤ D) (hN : 1 ≤ N) (inCh : List String)
    (h : (inCh.filter (fun w => sanitize w ≠ "")).length < D) :
    ∃ r : Run env, (NewEmitter env D N).Do inCh = some (r, false) ∧ r.out = [] := by
  have := hN
  unfold Emitter.Do
  exact doLoop_warmup env hD inCh _ [] (WQInv_new D N) rfl (by simpa using h)

/-- C13, instance: depth 3, and four transcripts of which two are not empty
after sanitization. -/
theorem emitter_warmup_witness :
    1 ≤ 3 ∧ 1 ≤ 2 ∧
    (["a b c", " [x] ", "", "d e"].filter (fun w => sanitize w ≠ "")).length < 3 ∧
    ∃ r : Run exactEnv,
      (NewEmitter exactEnv 3 2).Do ["a b c", " [x] ", "", "d e"] = some (r, false) ∧
      r.out = [] :=
  ⟨by decide, by decide, by decide,
    emitter_warmup exactEnv 3 2 (by decide) (by decide) ["a b c", " [x] ", "", "d e"]
      (by decide)⟩

end Predict

namespace Predict
open Utility

theorem set_last_append {β : Type} (A : List β) (x tok : β) :
    (A ++ [x]).set A.length tok = A ++ [tok] := by
  induction A with
  | nil => rfl
  | cons a A ih => simp [ih]

/-- The shift of `emitToken` (copy, then write the last cell) drops the oldest
token and appends the new one. -/
theorem shift_emitted (e : List String) (tok : String) (hne : e ≠ []) :
    ((goCopy e (e.drop 1)).1).set (e.length - 1) tok = e.drop 1 ++ [tok] := by
  have hlen : 0 < e.length := List.length_pos.mpr hne
  obtain ⟨x, hx⟩ : ∃ x, e.drop (e.length - 1) = [x] := by
    have h1 : (e.drop (e.length - 1)).length = 1 := by rw [List.length_drop]; omega
    match h : e.drop (e.length - 1), h1 with
    | [x], _ => exact ⟨x, rfl⟩
  unfold goCopy
  have hmin : min e.length (e.drop 1).length = e.length - 1 := by
    rw [List.length_drop]; omega
  have ht : (e.drop 1).take (e.length - 1) = e.drop 1 :=
    List.take_of_length_le (by rw [List.length_drop])
  dsimp only
  rw [hmin, ht, hx]
  have := set_last_append (e.drop 1) x tok
  rw [List.length_drop] at this
  exact this

/-- What `emitToken` does to the state: the token is sent, and it is appended
to `emitted` while that is shorter than the order, slid in otherwise. -/
theorem emitToken_spec {env : Env} (r r2 : Run env) (tok : String)
    (h : emitToken r tok = some r2) :
    r2.e.ngram = r.e.ngram ∧ r2.e.q = r.e.q ∧ r2.overwrites = r.overwrites ∧
    r2.out = r.out ++ [tok] ∧
    (r.e.emitted.length < r.e.ngram → r2.e.emitted = r.e.emitted ++ [tok]) ∧
    (¬ r.e.emitted.length < r.e.ngram →
      r.e.emitted ≠ [] ∧ r2.e.emitted = r.e.emitted.drop 1 ++ [tok]) := by
  unfold emitToken at h
  dsimp only at h
  by_cases hlt : r.e.emitted.length < r.e.ngram
  · rw [if_pos hlt] at h
    have := Option.some.inj h
    subst this
    exact ⟨rfl, rfl, rfl, rfl, fun _ => rfl, fun hc => absurd hlt hc⟩
  · rw [if_neg hlt] at h
    by_cases h0 : r.e.emitted.length = 0
    · rw [if_pos h0] at h
      exact absurd h (by simp)
    · rw [if_neg h0] at h
      have hne : r.e.emitted ≠ [] := fun hc => h0 (by rw [hc]; rfl)
      have := Option.some.inj h
      subst this
      exact ⟨rfl, rfl, rfl, rfl, fun hc => absurd hc hlt,
        fun _ => ⟨hne, shift_emitted _ _ hne⟩⟩

/-- The ghost mark of the last overwrite is not changed by `emitToken`. -/
theorem emitToken_mark {env : Env} (r r2 : Run env) (tok : String)
    (h : emitToken r tok = some r2) : r2.sentAtOverwrite = r.sentAtOverwrite := by
  unfold emitToken at h
  dsimp only at h
  split at h
  · have := Option.some.inj h
    subst this
    rfl
  · split at h
    · exact absurd h (by simp)
    · have := Option.some.inj h
      subst this
      rfl

theorem emitLoop_preserves {env : Env} (P : Run env → Prop)
    (hTok : ∀ (r : Run env) (tok : String) (r2 : Run env),
      P r → emitToken r tok = some r2 → P r2) :
    ∀ (n : Nat) (r : Run env) (cnt : Int) (r2 : Run env) (c : Int) (err : Bool),
      P r → emitLoop n r cnt = some (r2, c, err) → P r2 := by
  intro n
  induction n with
  | zero =>
    intro r cnt r2 c err hP h
    unfold emitLoop at h
    have := Option.some.inj h
    rw [← (Prod.mk.inj this).1]
    exact hP
  | succ n ih =>
    intro r cnt r2 c err hP h
    unfold emitLoop at h
    split at h
    · exact absurd h (by simp)
    · have := Option.some.inj h
      rw [← (Prod.mk.inj this).1]
      exact hP
    · split at h
      · have := Option.some.inj h
        rw [← (Prod.mk.inj this).1]
        exact hP
      · split at h
        · exact absurd h (by simp)
        · next r3 hr3 => exact ih _ _ _ _ _ (hTok _ _ _ hP hr3) h

theorem overlapLoop_preserves {env : Env} (P : Run env → Prop)
    (hTok : ∀ (r : Run env) (tok : String) (r2 : Run env),
      P r → emitToken r tok = some r2 → P r2) (tokens : List String) :
    ∀ (n : Nat) (r : Run env) (idx toEmit : Int) (r2 : Run env) (idx2 toEmit2 : Int),
      P r → overlapLoop tokens n r idx toEmit = some (r2, idx2, toEmit2) → P r2 := by
  intro n
  induction n with
  | zero =>
    intro r idx toEmit r2 idx2 toEmit2 hP h
    unfold overlapLoop at h
    have := Option.some.inj h
    rw [← (Prod.mk.inj this).1]
    exact hP
  | succ n ih =>
    intro r idx toEmit r2 idx2 toEmit2 hP h
    unfold overlapLoop at h
    split at h
    · exact absurd h (by simp)
    · split at h
      · exact absurd h (by simp)
      · split at h
        · exact absurd h (by simp)
        · next r3 hr3 => exact ih _ _ _ _ _ _ (hTok _ _ _ hP hr3) h

theorem recover_preserves {env : Env} (P : Run env → Prop)
    (hTok : ∀ (r : Run env) (tok : String) (r2 : Run env),
      P r → emitToken r tok = some r2 → P r2)
    (hOver : ∀ (r : Run env) (tokens : List String) (i : Nat), P r →
      i + r.e.ngram ≤ tokens.length →
      P { r with
          e := { r.e with emitted := (tokens.drop i).take r.e.ngram },
          overwrites := r.overwrites + 1
          sentAtOverwrite := r.out.length }) :
    ∀ (r : Run env) (tokens : List String) (idx toEmit n : Int) (r2 : Run env)
      (err : Bool), P r → recover r tokens idx toEmit n = some (r2, err) → P r2 := by
  intro r tokens idx toEmit n r2 err hP h
  unfold recover at h
  split at h
  · exact absurd h (by simp)
  · next r3 idx3 toEmit3 h3 =>
    have hP3 := overlapLoop_preserves P hTok tokens _ _ _ _ _ _ _ hP h3
    split at h
    · next hb =>
      split at h
      · exact absurd h (by simp)
      · next r5 c5 err5 h5 =>
        have := Option.some.inj h
        rw [← (Prod.mk.inj this).1]
        exact emitLoop_preserves P hTok _ _ _ _ _ _ (hOver r3 tokens idx3.toNat hP3 hb.2) h5
    · exact absurd h (by simp)

/-- Invariant rule for `Emitter.Do`: a property of the state that `emitToken`
preserves, that holds after the recovery overwrite, and that does not depend on
the queue and on `tokensPerWindow`, is preserved by the loop of `Do`. -/
theorem doLoop_preserves {env : Env} (P : Run env → Prop)
    (hTok : ∀ (r : Run env) (tok : String) (r2 : Run env),
      P r → emitToken r tok = some r2 → P r2)
    (hOver : ∀ (r : Run env) (tokens : List String) (i : Nat), P r →
      i + r.e.ngram ≤ tokens.length →
      P { r with
          e := { r.e with emitted := (tokens.drop i).take r.e.ngram },
          overwrites := r.overwrites + 1
          sentAtOverwrite := r.out.length })
    (hPush : ∀ (r : Run env) (tokens : List String) (q : WindowQ),
      P r → P (afterPush r tokens q)) :
    ∀ (inCh : List String) (r r2 : Run env) (err : Bool),
      P r → doLoop r inCh = some (r2, err) → P r2 := by
  have hrec := recover_preserves P hTok hOver
  have hcatch : ∀ (r : Run env) (tokens : List String) (r2 : Run env) (err : Bool),
      P r → catchUp r tokens = some (r2, err) → P r2 := by
    intro r tokens r2 err hP h
    unfold catchUp at h
    split at h
    · exact absurd h (by simp)
    · dsimp only at h
      split at h
      · split at h
        · exact absurd h (by simp)
        · next r3 n3 err3 h3 =>
          have hP3 := emitLoop_preserves P hTok _ _ _ _ _ _ hP h3
          split at h
          · exact hrec _ _ _ _ _ _ _ hP3 h
          · have := Option.some.inj h
            rw [← (Prod.mk.inj this).1]
            exact hP3
      · have := Option.some.inj h
        rw [← (Prod.mk.inj this).1]
        exact hP
  have hwin : ∀ (r : Run env) (w : String) (r2 : Run env) (err : Bool),
      P r → doWindow r w = some (r2, err) → P r2 := by
    intro r w r2 err hP h
    unfold doWindow at h
    split at h
    · have := Option.some.inj h
      rw [← (Prod.mk.inj this).1]
      exact hP
    · split at h
      · exact absurd h (by simp)
      · split at h
        · exact hcatch _ _ _ _ (hPush _ _ _ hP) h
        · have := Option.some.inj h
          rw [← (Prod.mk.inj this).1]
          exact hPush _ _ _ hP
  intro inCh
  induction inCh with
  | nil =>
    intro r r2 err hP h
    unfold doLoop at h
    have := Option.some.inj h
    rw [← (Prod.mk.inj this).1]
    exact hP
  | cons w rest ih =>
    intro r r2 err hP h
    unfold doLoop at h
    split at h
    · exact absurd h (by simp)
    · next r3 h3 =>
      have := Option.some.inj h
      rw [← (Prod.mk.inj this).1]
      exact hwin _ _ _ _ hP h3
    · next r3 h3 => exact ih _ _ _ (hwin _ _ _ _ hP h3) h

end Predict

namespace Predict
open Utility

/-- The bound len(emitted) ≤ order is kept by `emitToken`. -/
theorem emitToken_length {env : Env} (N : Nat) (r : Run env) (tok : String) (r2 : Run env)
    (hP : r.e.ngram = N ∧ r.e.emitted.length ≤ N) (h : emitToken r tok = some r2) :
    r2.e.ngram = N ∧ r2.e.emitted.length ≤ N := by
  obtain ⟨hn, _, _, _, h1, h2⟩ := emitToken_spec r r2 tok h
  refine ⟨by rw [hn]; exact hP.1, ?_⟩
  by_cases hlt : r.e.emitted.length < r.e.ngram
  · rw [h1 hlt, List.length_append, List.length_singleton]
    omega
  · obtain ⟨hne, he⟩ := h2 hlt
    have := List.length_pos.mpr hne
    rw [he, List.length_append, List.length_singleton, List.length_drop]
    omega

/-- The recovery overwrite keeps the bound len(emitted) ≤ order. -/
theorem overwrite_length {env : Env} (M : Nat) (r : Run env) (tokens : List String) (i : Nat)
    (hP : r.e.ngram = M ∧ r.e.emitted.length ≤ M) (_hi : i + r.e.ngram ≤ tokens.length) :
    r.e.ngram = M ∧ ((tokens.drop i).take r.e.ngram).length ≤ M := by
  refine ⟨hP.1, ?_⟩
  rw [List.length_take, hP.1]
  omega

/-- C14. For every order N ≥ 1, len(emitted) ≤ N is an invariant of the
emitter: it holds for a new emitter, `emitToken` keeps it (and the order),
the recovery keeps it (its overwrite tokens[idx : idx+N] has at most N
tokens), and it holds in every state in which `Emitter.Do` returns. -/
theorem emitted_length_invariant (env : Env) (D N : Nat) (hN : 1 ≤ N) :
    (NewEmitter env D N).emitted.length ≤ N ∧
    (∀ (r r2 : Run env) (tok : String), r.e.emitted.length ≤ r.e.ngram →
      emitToken r tok = some r2 →
      r2.e.ngram = r.e.ngram ∧ r2.e.emitted.length ≤ r2.e.ngram) ∧
    (∀ (tokens : List String) (i : Nat), ((tokens.drop i).take N).length ≤ N) ∧
    (∀ (r r2 : Run env) (tokens : List String) (idx toEmit n : Int) (err : Bool),
      r.e.emitted.length ≤ r.e.ngram → recover r tokens idx toEmit n = some (r2, err) →
      r2.e.ngram = r.e.ngram ∧ r2.e.emitted.length ≤ r2.e.ngram) ∧
    (∀ (inCh : List String) (r : Run env) (err : Bool),
      (NewEmitter env D N).Do inCh = some (r, err) →
      r.e.ngram = N ∧ r.e.emitted.length ≤ N) := by
  have := hN
  refine ⟨Nat.zero_le _, ?_, ?_, ?_, ?_⟩
  · intro r r2 tok hl h
    have := emitToken_length r.e.ngram r tok r2 ⟨rfl, hl⟩ h
    exact ⟨this.1, by rw [this.1]; exact this.2⟩
  · intro tokens i
    rw [List.length_take]
    omega
  · intro r r2 tokens idx toEmit n err hl h
    have := recover_preserves (fun x : Run env => x.e.ngram = r.e.ngram ∧
      x.e.emitted.length ≤ r.e.ngram) (emitToken_length r.e.ngram)
      (overwrite_length r.e.ngram) r tokens idx toEmit n r2 err ⟨rfl, hl⟩ h
    exact ⟨this.1, by rw [this.1]; exact this.2⟩
  · intro inCh r err h
    unfold Emitter.Do at h
    exact doLoop_preserves (fun x : Run env => x.e.ngram = N ∧ x.e.emitted.length ≤ N)
      (emitToken_length N) (overwrite_length N) (fun _ _ _ hP => hP) inCh _ r err
      ⟨rfl, Nat.zero_le _⟩ h

/-- C14, instance: order 2 and depth 1; the run on the transcripts "a b" and
"c d e f", which goes through a recovery, ends with two emitted tokens. -/
theorem emitted_length_invariant_witness :
    1 ≤ 2 ∧
    ((NewEmitter exactEnv 1 2).Do ["a b", "c d e f"]).map (fun p => p.1.e.emitted.length)
      = some 2 ∧
    ((NewEmitter exactEnv 1 2).emitted.length ≤ 2 ∧
    (∀ (r r2 : Run exactEnv) (tok : String), r.e.emitted.length ≤ r.e.ngram →
      emitToken r tok = some r2 →
      r2.e.ngram = r.e.ngram ∧ r2.e.emitted.length ≤ r2.e.ngram) ∧
    (∀ (tokens : List String) (i : Nat), ((tokens.drop i).take 2).length ≤ 2) ∧
    (∀ (r r2 : Run exactEnv) (tokens : List String) (idx toEmit n : Int) (err : Bool),
      r.e.emitted.length ≤ r.e.ngram → recover r tokens idx toEmit n = some (r2, err) →
      r2.e.ngram = r.e.ngram ∧ r2.e.emitted.length ≤ r2.e.ngram) ∧
    (∀ (inCh : List String) (r : Run exactEnv) (err : Bool),
      (NewEmitter exactEnv 1 2).Do inCh = some (r, err) →
      r.e.ngram = 2 ∧ r.e.emitted.length ≤ 2)) :=
  ⟨by decide, by decide, emitted_length_invariant exactEnv 1 2 (by decide)⟩

/-- A suffix short enough is a suffix of the list without its first `c` cells. -/
theorem suffix_drop_of_length {β : Type} (s l : List β) (c : Nat) (hs : s <:+ l)
    (hlen : s.length + c ≤ l.length) : s <:+ l.drop c := by
  have h1 := List.suffix_iff_eq_drop.mp hs
  have h2 : l.drop (l.length - s.length) = (l.drop c).drop (l.length - s.length - c) := by
    rw [List.drop_drop]
    congr 1
    omega
  rw [h1, h2]
  exact List.drop_suffix _ _

/-- The relation "the last min(k, N) tokens sent are the last tokens of
emitted", k being the number of tokens sent since the mark, is kept by
`emitToken`. -/
theorem emitToken_suffix {env : Env} (N : Nat) (hN : 1 ≤ N) (r r2 : Run env) (tok : String)
    (hn : r.e.ngram = N) (hm : r.sentAtOverwrite ≤ r.out.length)
    (hs : r.out.drop (r.out.length - min (r.out.length - r.sentAtOverwrite) N)
      <:+ r.e.emitted)
    (h : emitToken r tok = some r2) :
    r2.out.drop (r2.out.length - min (r2.out.length - r2.sentAtOverwrite) N)
      <:+ r2.e.emitted := by
  obtain ⟨_, _, _, ho, h1, h2⟩ := emitToken_spec r r2 tok h
  have hmark := emitToken_mark r r2 tok h
  have hslen : (r.out.drop (r.out.length - min (r.out.length - r.sentAtOverwrite) N)).length
      = min (r.out.length - r.sentAtOverwrite) N := by
    rw [List.length_drop]
    omega
  have hle := hs.length_le
  rw [hslen] at hle
  rw [ho, hmark, List.length_append, List.length_singleton,
    List.drop_append_of_le_length (by omega)]
  -- the tokens of `out` in the new suffix are among those of the old one
  have hsub : r.out.drop (r.out.length + 1 - min (r.out.length + 1 - r.sentAtOverwrite) N)
      <:+ r.out.drop (r.out.length - min (r.out.length - r.sentAtOverwrite) N) := by
    have : r.out.length + 1 - min (r.out.length + 1 - r.sentAtOverwrite) N
        = (r.out.length - min (r.out.length - r.sentAtOverwrite) N)
          + (r.out.length + 1 - min (r.out.length + 1 - r.sentAtOverwrite) N
            - (r.out.length - min (r.out.length - r.sentAtOverwrite) N)) := by omega
    rw [this, ← List.drop_drop]
    exact List.drop_suffix _ _
  have hsuf := hsub.trans hs
  by_cases hlt : r.e.emitted.length < r.e.ngram
  · rw [h1 hlt]
    obtain ⟨t, ht⟩ := hsuf
    exact ⟨t, by rw [← List.append_assoc, ht]⟩
  · rw [(h2 hlt).2]
    have hlen2 : (r.out.drop
        (r.out.length + 1 - min (r.out.length + 1 - r.sentAtOverwrite) N)).length + 1
        ≤ r.e.emitted.length := by
      rw [List.length_drop]
      omega
    obtain ⟨t, ht⟩ := suffix_drop_of_length _ _ 1 hsuf hlen2
    exact ⟨t, by rw [← List.append_assoc, ht]⟩

/-- The relation between `emitted` and the tokens sent is kept by `emitToken`. -/
theorem emitToken_sinkInv {env : Env} (N : Nat) (hN : 1 ≤ N) (r : Run env) (tok : String)
    (r2 : Run env)
    (hP : r.e.ngram = N ∧ r.sentAtOverwrite ≤ r.out.length ∧
      (r.overwrites = 0 → r.sentAtOverwrite = 0) ∧
      r.e.emitted.length = (if r.overwrites = 0 then min r.out.length N else N) ∧
      r.out.drop (r.out.length - min (r.out.length - r.sentAtOverwrite) N) <:+ r.e.emitted)
    (h : emitToken r tok = some r2) :
    r2.e.ngram = N ∧ r2.sentAtOverwrite ≤ r2.out.length ∧
      (r2.overwrites = 0 → r2.sentAtOverwrite = 0) ∧
      r2.e.emitted.length = (if r2.overwrites = 0 then min r2.out.length N else N) ∧
      r2.out.drop (r2.out.length - min (r2.out.length - r2.sentAtOverwrite) N)
        <:+ r2.e.emitted := by
  obtain ⟨hn, hm, h0, hl, hs⟩ := hP
  obtain ⟨hn2, _, how, ho, h1, h2⟩ := emitToken_spec r r2 tok h
  have hmark := emitToken_mark r r2 tok h
  refine ⟨by rw [hn2, hn], ?_, ?_, ?_, emitToken_suffix N hN r r2 tok hn hm hs h⟩
  · rw [hmark, ho, List.length_append]
    omega
  · rw [how, hmark]
    exact h0
  · rw [how, ho, List.length_append, List.length_singleton]
    by_cases hlt : r.e.emitted.length < r.e.ngram
    · rw [h1 hlt, List.length_append, List.length_singleton]
      by_cases hz : r.overwrites = 0
      · rw [if_pos hz] at hl ⊢
        omega
      · rw [if_neg hz] at hl ⊢
        omega
    · obtain ⟨hne, he⟩ := h2 hlt
      have hpos := List.length_pos.mpr hne
      rw [he, List.length_append, List.length_singleton, List.length_drop]
      by_cases hz : r.overwrites = 0
      · rw [if_pos hz] at hl ⊢
        omega
      · rw [if_neg hz] at hl ⊢
        omega

/-- The relation between `emitted` and the tokens sent holds after the recovery
overwrite: no token has been sent since. -/
theorem overwrite_sinkInv {env : Env} (N : Nat) (r : Run env) (tokens : List String) (i : Nat)
    (hP : r.e.ngram = N ∧ r.sentAtOverwrite ≤ r.out.length ∧
      (r.overwrites = 0 → r.sentAtOverwrite = 0) ∧
      r.e.emitted.length = (if r.overwrites = 0 then min r.out.length N else N) ∧
      r.out.drop (r.out.length - min (r.out.length - r.sentAtOverwrite) N) <:+ r.e.emitted)
    (hi : i + r.e.ngram ≤ tokens.length) :
    r.e.ngram = N ∧ r.out.length ≤ r.out.length ∧
      (r.overwrites + 1 = 0 → r.out.length = 0) ∧
      ((tokens.drop i).take r.e.ngram).length
        = (if r.overwrites + 1 = 0 then min r.out.length N else N) ∧
      r.out.drop (r.out.length - min (r.out.length - r.out.length) N)
        <:+ (tokens.drop i).take r.e.ngram := by
  refine ⟨hP.1, Nat.le_refl _, fun hc => absurd hc (Nat.succ_ne_zero _), ?_, ?_⟩
  · rw [if_neg (Nat.succ_ne_zero _), List.length_take, List.length_drop, hP.1] at *
    omega
  · rw [Nat.sub_self, Nat.zero_min, Nat.sub_zero, List.drop_length]
    exact List.nil_suffix

/-- C15, amended. Let k be the number of tokens sent since `emitted` was last
overwritten by the recovery (k = E, the number sent in all, while it never
was). The relation "the last min(k, N) tokens sent are, in order, the last
tokens of emitted" is kept by `emitToken` and by the recovery, and in every
state in which `Emitter.Do` returns it holds with len(emitted) = min(E, N)
before the first overwrite and len(emitted) = N after it. Hence emitted is the
last min(E, N) tokens sent whenever no overwrite has taken place or at least
N tokens have been sent since the last one. -/
theorem emitted_sink_since_overwrite (env : Env) (D N : Nat) (hN : 1 ≤ N) :
    (∀ (r r2 : Run env) (tok : String), r.e.ngram = N →
      r.sentAtOverwrite ≤ r.out.length →
      r.out.drop (r.out.length - min (r.out.length - r.sentAtOverwrite) N)
        <:+ r.e.emitted →
      emitToken r tok = some r2 →
      r2.out = r.out ++ [tok] ∧ r2.sentAtOverwrite = r.sentAtOverwrite ∧
      r2.out.drop (r2.out.length - min (r2.out.length - r2.sentAtOverwrite) N)
        <:+ r2.e.emitted) ∧
    (∀ (r r2 : Run env) (tokens : List String) (idx toEmit n : Int) (err : Bool),
      r.e.ngram = N → r.sentAtOverwrite ≤ r.out.length →
      (r.overwrites = 0 → r.sentAtOverwrite = 0) →
      r.e.emitted.length = (if r.overwrites = 0 then min r.out.length N else N) →
      r.out.drop (r.out.length - min (r.out.length - r.sentAtOverwrite) N)
        <:+ r.e.emitted →
      recover r tokens idx toEmit n = some (r2, err) →
      r2.sentAtOverwrite ≤ r2.out.length ∧ r2.e.emitted.length = N ∧
      r2.out.drop (r2.out.length - min (r2.out.length - r2.sentAtOverwrite) N)
        <:+ r2.e.emitted) ∧
    (∀ (inCh : List String) (r : Run env) (err : Bool),
      (NewEmitter env D N).Do inCh = some (r, err) →
      r.sentAtOverwrite ≤ r.out.length ∧
      (r.overwrites = 0 → r.sentAtOverwrite = 0) ∧
      r.e.emitted.length = (if r.overwrites = 0 then min r.out.length N else N) ∧
      r.out.drop (r.out.length - min (r.out.length - r.sentAtOverwrite) N)
        <:+ r.e.emitted ∧
      (r.overwrites = 0 ∨ N ≤ r.out.length - r.sentAtOverwrite →
        r.e.emitted = r.out.drop (r.out.length - min r.out.length N))) := by
  refine ⟨?_, ?_, ?_⟩
  · intro r r2 tok hn hm hs h
    exact ⟨(emitToken_spec r r2 tok h).2.2.2.1, emitToken_mark r r2 tok h,
      emitToken_suffix N hN r r2 tok hn hm hs h⟩
  · intro r r2 tokens idx toEmit n err hn hm h0 hl hs h
    unfold recover at h
    split at h
    · exact absurd h (by simp)
    · next r3 idx3 toEmit3 h3 =>
      have hP3 := overlapLoop_preserves
        (fun x : Run env => x.e.ngram = N ∧ x.sentAtOverwrite ≤ x.out.length ∧
          (x.overwrites = 0 → x.sentAtOverwrite = 0) ∧
          x.e.emitted.length = (if x.overwrites = 0 then min x.out.length N else N) ∧
          x.out.drop (x.out.length - min (x.out.length - x.sentAtOverwrite) N)
            <:+ x.e.emitted)
        (emitToken_sinkInv N hN) tokens _ _ _ _ _ _ _ ⟨hn, hm, h0, hl, hs⟩ h3
      split at h
      · next hb =>
        split at h
        · exact absurd h (by simp)
        · next r5 c5 err5 h5 =>
          have hr := Option.some.inj h
          rw [← (Prod.mk.inj hr).1]
          -- after the overwrite the ghost counter is positive, and stays so
          have key := emitLoop_preserves
            (fun x : Run env => (x.e.ngram = N ∧ x.sentAtOverwrite ≤ x.out.length ∧
              (x.overwrites = 0 → x.sentAtOverwrite = 0) ∧
              x.e.emitted.length = (if x.overwrites = 0 then min x.out.length N else N) ∧
              x.out.drop (x.out.length - min (x.out.length - x.sentAtOverwrite) N)
                <:+ x.e.emitted) ∧ x.overwrites ≠ 0)
            (fun x tok x2 hP hx =>
              ⟨emitToken_sinkInv N hN x tok x2 hP.1 hx,
                by rw [(emitToken_spec x x2 tok hx).2.2.1]; exact hP.2⟩)
            _ _ _ _ _ _
            (by exact ⟨overwrite_sinkInv N r3 tokens idx3.toNat hP3 hb.2,
              Nat.succ_ne_zero _⟩) h5
          obtain ⟨⟨_, hm5, _, hl5, hs5⟩, hz5⟩ := key
          rw [if_neg hz5] at hl5
          exact ⟨hm5, hl5, hs5⟩
      · exact absurd h (by simp)
  · intro inCh r err h
    unfold Emitter.Do at h
    have key := doLoop_preserves
      (fun x : Run env => x.e.ngram = N ∧ x.sentAtOverwrite ≤ x.out.length ∧
        (x.overwrites = 0 → x.sentAtOverwrite = 0) ∧
        x.e.emitted.length = (if x.overwrites = 0 then min x.out.length N else N) ∧
        x.out.drop (x.out.length - min (x.out.length - x.sentAtOverwrite) N)
          <:+ x.e.emitted)
      (emitToken_sinkInv N hN) (overwrite_sinkInv N) (fun _ _ _ hP => hP) inCh _ r err
      ⟨rfl, Nat.le_refl _, fun _ => rfl, by simp [NewEmitter], by simp⟩ h
    obtain ⟨_, hm, h0, hl, hs⟩ := key
    refine ⟨hm, h0, hl, hs, ?_⟩
    intro hcase
    have hslen : (r.out.drop
        (r.out.length - min (r.out.length - r.sentAtOverwrite) N)).length
        = min (r.out.length - r.sentAtOverwrite) N := by
      rw [List.length_drop]
      omega
    have heq : r.out.drop (r.out.length - min (r.out.length - r.sentAtOverwrite) N)
        = r.e.emitted := by
      refine List.IsSuffix.eq_of_length hs ?_
      rw [hslen, hl]
      by_cases hz : r.overwrites = 0
      · rw [if_pos hz, h0 hz]
        rfl
      · rw [if_neg hz]
        rcases hcase with hc | hc
        · exact absurd hc hz
        · omega
    rw [← heq]
    congr 2
    by_cases hz : r.overwrites = 0
    · rw [h0 hz]
      rfl
    · rcases hcase with hc | hc
      · exact absurd hc hz
      · omega

/-- C15 amended, instance: order 2 and depth 1; the run on the transcripts
"a b" and "c d e f g h i j k l" sends a, b, overwrites emitted with [c, d]
when two tokens have been sent, and sends e to k; seven tokens having been
sent since the overwrite, emitted = [j, k] is again the last two tokens sent. -/
theorem emitted_sink_since_overwrite_witness :
    1 ≤ 2 ∧
    ((NewEmitter exactEnv 1 2).Do ["a b", "c d e f g h i j k l"]).map
        (fun p => (p.1.out, p.1.e.emitted, p.1.overwrites, p.1.sentAtOverwrite))
      = some (["a", "b", "e", "f", "g", "h", "i", "j", "k"], ["j", "k"], 1, 2) ∧
    ((∀ (r r2 : Run exactEnv) (tok : String), r.e.ngram = 2 →
      r.sentAtOverwrite ≤ r.out.length →
      r.out.drop (r.out.length - min (r.out.length - r.sentAtOverwrite) 2)
        <:+ r.e.emitted →
      emitToken r tok = some r2 →
      r2.out = r.out ++ [tok] ∧ r2.sentAtOverwrite = r.sentAtOverwrite ∧
      r2.out.drop (r2.out.length - min (r2.out.length - r2.sentAtOverwrite) 2)
        <:+ r2.e.emitted) ∧
    (∀ (r r2 : Run exactEnv) (tokens : List String) (idx toEmit n : Int) (err : Bool),
      r.e.ngram = 2 → r.sentAtOverwrite ≤ r.out.length →
      (r.overwrites = 0 → r.sentAtOverwrite = 0) →
      r.e.emitted.length = (if r.overwrites = 0 then min r.out.length 2 else 2) →
      r.out.drop (r.out.length - min (r.out.length - r.sentAtOverwrite) 2)
        <:+ r.e.emitted →
      recover r tokens idx toEmit n = some (r2, err) →
      r2.sentAtOverwrite ≤ r2.out.length ∧ r2.e.emitted.length = 2 ∧
      r2.out.drop (r2.out.length - min (r2.out.length - r2.sentAtOverwrite) 2)
        <:+ r2.e.emitted) ∧
    (∀ (inCh : List String) (r : Run exactEnv) (err : Bool),
      (NewEmitter exactEnv 1 2).Do inCh = some (r, err) →
      r.sentAtOverwrite ≤ r.out.length ∧
      (r.overwrites = 0 → r.sentAtOverwrite = 0) ∧
      r.e.emitted.length = (if r.overwrites = 0 then min r.out.length 2 else 2) ∧
      r.out.drop (r.out.length - min (r.out.length - r.sentAtOverwrite) 2)
        <:+ r.e.emitted ∧
      (r.overwrites = 0 ∨ 2 ≤ r.out.length - r.sentAtOverwrite →
        r.e.emitted = r.out.drop (r.out.length - min r.out.length 2)))) :=
  ⟨by decide, by decide, emitted_sink_since_overwrite exactEnv 1 2 (by decide)⟩

end Predict

namespace Predict
open Utility

/-- The successors counted by a chain of order `N` trained on the single
sequence `T`: the tokens that follow an occurrence of the prefix in the padded
sequence. -/
theorem mem_successors (startTok endTok : String) (N : Nat) (T pre : List String)
    (s : String) :
    s ∈ ((NewChain N).Add T).successors startTok endTok pre ↔
      ∃ p : Nat, p + N < (List.replicate N startTok ++ T ++ [endTok]).length ∧
        ((List.replicate N startTok ++ T ++ [endTok]).drop p).take N = pre ∧
        (List.replicate N startTok ++ T ++ [endTok])[p + N]? = some s := by
  unfold Chain.successors NewChain Chain.Add trainingPairs
  simp only [List.nil_append, List.flatMap_cons, List.flatMap_nil, List.append_nil,
    List.mem_filterMap, List.mem_range]
  constructor
  · rintro ⟨⟨g, nx⟩, ⟨p, hp, hpair⟩, hsel⟩
    dsimp only at hsel
    split at hsel
    · next hg =>
      have hs : nx = s := Option.some.inj hsel
      subst hs
      cases hq : (List.replicate N startTok ++ T ++ [endTok])[p + N]? with
      | none => rw [hq] at hpair; simp at hpair
      | some y =>
        rw [hq] at hpair
        simp only [Option.map_some', Option.some.injEq, Prod.mk.injEq] at hpair
        refine ⟨p, by omega, ?_, ?_⟩
        · rw [hpair.1]; exact hg
        · rw [hq, hpair.2]
    · exact absurd hsel (by simp)
  · rintro ⟨p, hp, hg, hs⟩
    refine ⟨(pre, s), ⟨p, by omega, ?_⟩, by simp⟩
    rw [hs, hg]
    rfl

/-- Sliding the successor of an occurrence of the prefix into the prefix gives
the next run of `N` tokens of the padded sequence. -/
theorem slide_window (P e : List String) (tok : String) (p N : Nat) (hN : 0 < N)
    (hg : (P.drop p).take N = e) (hs : P[p + N]? = some tok) :
    e.drop 1 ++ [tok] = (P.drop (p + 1)).take N := by
  have hlt : p + N < P.length := (List.getElem?_eq_some_iff.mp hs).1
  have hlen : e.length = N := by
    rw [← hg, List.length_take, List.length_drop]
    omega
  have h1 : (P.drop p).take (N + 1) = e ++ [tok] := by
    rw [List.take_succ, hg, List.getElem?_drop, hs]
    rfl
  rw [← List.drop_drop, List.take_drop, Nat.add_comm 1 N, h1,
    List.drop_append_of_le_length (by omega)]

theorem emitToken_some {env : Env} (r : Run env) (tok : String) (hne : r.e.emitted ≠ []) :
    ∃ r2 : Run env, emitToken r tok = some r2 := by
  unfold emitToken
  dsimp only
  split
  · exact ⟨_, rfl⟩
  · have h0 : ¬ r.e.emitted.length = 0 := fun hc => hne (List.length_eq_zero.mp hc)
    rw [if_neg h0]
    exact ⟨_, rfl⟩

/-- While `emitted` is a run of `N` tokens of the padded training sequence
that is followed by a token, the chain trained on `T` knows the prefix, and
the loop of `emitTokens` returns without error. -/
theorem emitLoop_known (env : Env) (pick : List String → String)
    (hgen : env.generate = specGenerate env.StartToken env.EndToken pick)
    (hpick : ∀ l : List String, l ≠ [] → pick l ∈ l)
    (N : Nat) (hN : 0 < N) (T : List String) (q : WindowQ)
    (hq : ∀ pre : List String,
      q.PredictNext env pre = some (env.generate ((NewChain N).Add T) pre)) :
    ∀ (n : Nat) (r : Run env) (cnt : Int), r.e.q = q → r.e.ngram = N →
      (∃ p : Nat, p + N < (List.replicate N env.StartToken ++ T ++ [env.EndToken]).length ∧
        ((List.replicate N env.StartToken ++ T ++ [env.EndToken]).drop p).take N
          = r.e.emitted) →
      ∃ (r2 : Run env) (c : Int), emitLoop n r cnt = some (r2, c, false) := by
  intro n
  induction n with
  | zero => intro r cnt _ _ _; exact ⟨r, cnt, rfl⟩
  | succ n ih =>
    intro r cnt hrq hrn hknown
    obtain ⟨p, hp, hg⟩ := hknown
    have hlen : r.e.emitted.length = N := by
      rw [← hg, List.length_take, List.length_drop]
      omega
    have hpad : padLeft r.e.emitted env.StartToken r.e.ngram = r.e.emitted := by
      unfold padLeft
      rw [if_pos (by omega)]
    have hne : ((NewChain N).Add T).successors env.StartToken env.EndToken r.e.emitted
        ≠ [] := by
      obtain ⟨s, hs⟩ : ∃ s,
          (List.replicate N env.StartToken ++ T ++ [env.EndToken])[p + N]? = some s :=
        ⟨_, List.getElem?_eq_getElem hp⟩
      exact List.ne_nil_of_mem
        ((mem_successors env.StartToken env.EndToken N T r.e.emitted s).mpr ⟨p, hp, hg, hs⟩)
    have hpred : r.e.q.PredictNext env (padLeft r.e.emitted env.StartToken r.e.ngram)
        = some (some (pick
          (((NewChain N).Add T).successors env.StartToken env.EndToken r.e.emitted))) := by
      rw [hpad, hrq, hq, hgen]
      unfold specGenerate
      rw [if_neg hne]
    unfold emitLoop
    rw [hpred]
    dsimp only
    by_cases hend : pick
        (((NewChain N).Add T).successors env.StartToken env.EndToken r.e.emitted)
        = env.EndToken
    · rw [if_pos hend]
      exact ⟨r, cnt, rfl⟩
    · rw [if_neg hend]
      obtain ⟨p0, hp0, hg0, hs0⟩ :=
        (mem_successors env.StartToken env.EndToken N T r.e.emitted _).mp (hpick _ hne)
      have hemne : r.e.emitted ≠ [] := by
        intro hc
        rw [hc] at hlen
        simp at hlen
        omega
      obtain ⟨r2, hr2⟩ := emitToken_some r
        (pick (((NewChain N).Add T).successors env.StartToken env.EndToken r.e.emitted))
        hemne
      rw [hr2]
      dsimp only
      obtain ⟨hn2, hq2, _, _, _, hslide⟩ := emitToken_spec r r2 _ hr2
      have hem2 := (hslide (by omega)).2
      refine ih r2 (cnt + 1) (by rw [hq2, hrq]) (by rw [hn2, hrn]) ⟨p0 + 1, ?_, ?_⟩
      · -- the token after the prefix is not the final END, so one more follows
        have hlast : (List.replicate N env.StartToken ++ T ++ [env.EndToken])[
            (List.replicate N env.StartToken ++ T).length]? = some env.EndToken := by
          rw [List.getElem?_append_right (Nat.le_refl _), Nat.sub_self]
          rfl
        have hPlen : (List.replicate N env.StartToken ++ T ++ [env.EndToken]).length
            = (List.replicate N env.StartToken ++ T).length + 1 := by
          rw [List.length_append, List.length_singleton]
        by_cases hc : p0 + N = (List.replicate N env.StartToken ++ T).length
        · rw [hc, hlast] at hs0
          exact absurd (Option.some.inj hs0).symm hend
        · omega
      · rw [hem2]
        exact (slide_window _ _ _ p0 N hN hg0 hs0).symm

/-- C17. For every window T with len(T) ≥ N ≥ 1 and every i ≤ len(T) - N:
when the newest chain is the order-N chain of the spec trained on T
(START-padded, END-terminated, any choice rule that picks one of the counted
successors) and emitted is T[i : i+N], `emitTokens(n)` returns without error
for every n: every prefix it queries has a successor in the chain. -/
theorem emitTokens_known_after_recovery (env : Env) (pick : List String → String)
    (hgen : env.generate = specGenerate env.StartToken env.EndToken pick)
    (hpick : ∀ l : List String, l ≠ [] → pick l ∈ l)
    (D N : Nat) (hD : 1 ≤ D) (hN : 1 ≤ N) (ts : List (List String)) (T : List String)
    (i : Nat) (hi : i + N ≤ T.length) (r : Run env)
    (hq : (NewWindowQ D N).pushAll (ts ++ [T]) = some r.e.q) (hn : r.e.ngram = N)
    (he : r.e.emitted = (T.drop i).take N) (n : Int) :
    ∃ (r2 : Run env) (c : Int), emitTokens r n = some (r2, c, false) := by
  obtain ⟨wq, hwq, hinv⟩ := @WQ_pushAll_inv D N hD (ts ++ [T])
  rw [hq] at hwq
  have hwq2 : r.e.q = wq := Option.some.inj hwq
  unfold emitTokens
  refine emitLoop_known env pick hgen hpick N hN T wq
    (fun pre => PredictNext_newest env hD hinv pre) n.toNat r 0 hwq2 hn ⟨N + i, ?_, ?_⟩
  · simp only [List.length_append, List.length_replicate, List.length_singleton]
    omega
  · rw [he, List.append_assoc, ← List.drop_drop, List.drop_left' (List.length_replicate _ _),
      List.drop_append_of_le_length (by omega),
      List.take_append_of_le_length (by rw [List.length_drop]; omega)]

/-- C17, instance: order 2, the window a b c, emitted = [b, c] = T[1:3], and
the chain of the spec choosing the first successor counted. -/
theorem emitTokens_known_after_recovery_witness :
    exactEnv.generate = specGenerate exactEnv.StartToken exactEnv.EndToken
      (fun l => l.headD "") ∧
    1 ≤ 1 ∧ 1 ≤ 2 ∧ 1 + 2 ≤ (["a", "b", "c"] : List String).length ∧
    (NewWindowQ 1 2).pushAll ([] ++ [["a", "b", "c"]])
      = some { q := { buf := [some 0], len := 1, head := 0 }, ngram := 2,
               heap := [⟨["a", "b", "c"], ⟨2, [["a", "b", "c"]]⟩⟩] } ∧
    ∃ (r2 : Run exactEnv) (c : Int),
      emitTokens
        ({ e := { depth := 1, ngram := 2,
                  q := { q := { buf := [some 0], len := 1, head := 0 }, ngram := 2,
                         heap := [⟨["a", "b", "c"], ⟨2, [["a", "b", "c"]]⟩⟩] },
                  emitted := ["b", "c"], tokensPerWindow := exactEnv.ofInt 3 },
           out := [], overwrites := 0 } : Run exactEnv) 5 = some (r2, c, false) :=
  ⟨rfl, by decide, by decide, by decide, by decide,
    emitTokens_known_after_recovery exactEnv (fun l => l.headD "") rfl
      (fun l hl => by
        cases l with
        | nil => exact absurd rfl hl
        | cons a t => exact List.mem_cons_self a t)
      1 2 (by decide) (by decide) [] ["a", "b", "c"] 1 (by decide)
      { e := { depth := 1, ngram := 2,
               q := { q := { buf := [some 0], len := 1, head := 0 }, ngram := 2,
                      heap := [⟨["a", "b", "c"], ⟨2, [["a", "b", "c"]]⟩⟩] },
               emitted := ["b", "c"], tokensPerWindow := exactEnv.ofInt 3 },
        out := [], overwrites := 0 }
      (by decide) rfl (by decide) 5⟩

end Predict

namespace Utility

/-- A window of the padded stream that lies in the final `W` zero samples. -/
theorem zero_window {α : Type} (A : List α) (d : α) (W a b : Nat) (ha : A.length ≤ a)
    (hb : a + b ≤ A.length + W) :
    ((A ++ List.replicate W d).drop a).take b = List.replicate b d := by
  rw [List.drop_append_eq_append_drop, List.drop_of_length_le ha, List.nil_append,
    List.drop_replicate, List.take_replicate]
  congr 1
  omega

/-- One pass of lines 39-52 when the step does not exceed the width: besides
`ProcInv`, the cells not yet rewritten keep the content of the last frame. -/
theorem fillAndEmit_stale {α : Type} {W S : Nat} (hS : 0 < S) (hSW : S ≤ W) {z : List α}
    {m : Nat} {st : ProcState α} (hinv : ProcInv W S z m st) (hst : StaleInv W S z m st)
    {chunk post : List α} (hz : z.drop (W + m) = chunk ++ post) (hne : chunk ≠ []) :
    (fillAndEmit S st chunk).2 = chunk.drop (min st.remaining chunk.length) ∧
    ProcInv W S z (m + min st.remaining chunk.length) (fillAndEmit S st chunk).1 ∧
    StaleInv W S z (m + min st.remaining chunk.length) (fillAndEmit S st chunk).1 := by
  have hclen : 0 < chunk.length := List.length_pos.mpr hne
  have hremW : st.remaining ≤ W := by
    obtain ⟨_, _, k, _, hk1, hk2, _⟩ := hinv
    have : (k + 1) * S = k * S + S := Nat.succ_mul k S
    omega
  have hrest : (fillAndEmit S st chunk).2 = chunk.drop (min st.remaining chunk.length) := by
    have hmin : min (W - (W - st.remaining)) chunk.length = min st.remaining chunk.length := by
      omega
    unfold fillAndEmit goCopy
    simp only [List.length_drop, hinv.hlen, hmin]
    split <;> rfl
  obtain ⟨c, hc0, hc1, hc2, hinv2⟩ := fillAndEmit_inv hS hinv hremW hz hne
  have hcc : c = min st.remaining chunk.length := by
    have := congrArg List.length (hc2.symm.trans hrest)
    simp only [List.length_drop] at this
    omega
  rw [hcc] at hinv2
  refine ⟨hrest, hinv2, ?_⟩
  -- the stale cells
  obtain ⟨buf, rem, out⟩ := st
  obtain ⟨hlen, hpos, k0, hout, hk1, hk2, hbuf⟩ := hinv
  dsimp only at hlen hpos hout hk1 hk2 hbuf hremW
  have hmin : min (W - (W - rem)) chunk.length = min rem chunk.length := by omega
  have hz2 : z.drop ((k0 + 1) * S + (W - rem)) = chunk ++ post := by
    rw [← hz]; congr 1; omega
  obtain ⟨hl, ht⟩ := @copy_into_tail _ W ((k0 + 1) * S) (W - rem) (min rem chunk.length) z buf
    chunk post hlen (Nat.sub_le W rem) (Nat.min_le_right _ _) (by omega) hbuf hz2
  unfold fillAndEmit goCopy
  simp only [List.length_drop, hlen, hmin]
  intro k hk hkpos
  by_cases h0 : rem - min rem chunk.length = 0
  · have hc : min rem chunk.length = rem := by omega
    rw [hc] at hl ht hk ⊢
    have hW : W - rem + rem = W := by omega
    rw [hW, List.take_of_length_le (by omega)] at ht
    simp only [Nat.sub_self, if_true, hl] at hk ⊢
    have hkS : k * S = (k0 + 1) * S := by
      have : (k + 1) * S = k * S + S := Nat.succ_mul k S
      omega
    have hfl : (List.take W (List.drop ((k0 + 1) * S) z)).length = W := by
      rw [← ht]; exact hl
    have hdrop : (List.take W (List.drop ((k0 + 1) * S) z)).drop (W - S)
        = (z.drop (k * S + (W - S))).take S := by
      rw [List.drop_take, List.drop_drop, hkS]
      congr 1
      omega
    by_cases hWS : W > S
    · rw [if_pos hWS, ht]
      have hm : min W (W - S) = W - S := by omega
      have hl2 : (List.take (W - S) (List.drop S (List.take W (List.drop ((k0 + 1) * S) z)))).length
          = W - S := by
        rw [List.length_take, List.length_drop, hfl]; omega
      rw [hm, List.drop_append_eq_append_drop, hl2, Nat.sub_self, List.drop_zero,
        List.drop_of_length_le (by rw [hl2]), List.nil_append]
      exact hdrop
    · rw [if_neg hWS, ht]
      exact hdrop
  · rw [if_neg h0] at hk ⊢
    dsimp only at hk ⊢
    have hk' : (k + 1) * S = m + rem := by omega
    have hold := hst k hk' hkpos
    dsimp only at hold
    have hidx : W - (rem - min rem chunk.length) = (W - rem) + min rem chunk.length := by
      omega
    have hA : (List.take (W - rem) buf ++ List.take (min rem chunk.length) chunk).length
        = (W - rem) + min rem chunk.length := by
      rw [List.length_append, List.length_take, List.length_take, hlen]
      omega
    rw [hidx, ← List.append_assoc, List.drop_append_eq_append_drop, hA, Nat.sub_self,
      List.drop_zero, List.drop_of_length_le (by rw [hA]), List.nil_append, hold,
      List.drop_take, List.drop_drop]
    congr 2
    omega

theorem processLoop_stale {α : Type} {W S : Nat} (_hW : 0 < W) (hS : 0 < S) (hSW : S ≤ W)
    {z : List α} :
    ∀ (fuel : Nat) (st : ProcState α) (chunk : List α) (m : Nat) (post : List α),
      chunk.length ≤ fuel → ProcInv W S z m st → StaleInv W S z m st →
      z.drop (W + m) = chunk ++ post →
      ∃ st2, processLoop S fuel st chunk = some st2 ∧
        ProcInv W S z (m + chunk.length) st2 ∧ StaleInv W S z (m + chunk.length) st2 := by
  intro fuel
  induction fuel with
  | zero =>
    intro st chunk m post hf hinv hst _
    cases chunk with
    | nil => exact ⟨st, processLoop_nil _ _ _, by simpa using hinv, by simpa using hst⟩
    | cons c cs => simp at hf
  | succ fuel ih =>
    intro st chunk m post hf hinv hst hz
    cases chunk with
    | nil => exact ⟨st, processLoop_nil _ _ _, by simpa using hinv, by simpa using hst⟩
    | cons c cs =>
      have hremW : st.remaining ≤ W := by
        obtain ⟨_, _, k, _, hk1, hk2, _⟩ := hinv
        have : (k + 1) * S = k * S + S := Nat.succ_mul k S
        omega
      have hlen := hinv.hlen
      obtain ⟨hrest, hinv2, hst2⟩ := fillAndEmit_stale hS hSW hinv hst hz (List.cons_ne_nil c cs)
      have hmpos : 0 < min st.remaining (c :: cs).length := by
        have := hinv.hpos
        simp only [List.length_cons]
        omega
      have hz2 : z.drop (W + (m + min st.remaining (c :: cs).length))
          = (fillAndEmit S st (c :: cs)).2 ++ post := by
        rw [hrest, ← Nat.add_assoc, ← List.drop_drop, hz,
          List.drop_append_of_le_length (Nat.min_le_right _ _)]
      have hf2 : (fillAndEmit S st (c :: cs)).2.length ≤ fuel := by
        rw [hrest, List.length_drop]
        simp only [List.length_cons] at hf hmpos ⊢
        omega
      obtain ⟨st3, hrun, hinv3, hst3⟩ := ih _ _ _ post hf2 hinv2 hst2 hz2
      have hm : m + min st.remaining (c :: cs).length + (fillAndEmit S st (c :: cs)).2.length
          = m + (c :: cs).length := by
        rw [hrest, List.length_drop]
        have := Nat.min_le_right st.remaining (c :: cs).length
        omega
      rw [hm] at hinv3 hst3
      refine ⟨st3, ?_, hinv3, hst3⟩
      unfold processLoop
      dsimp only
      rw [if_neg (by simp only [List.length_cons]; omega), if_neg (by omega),
        if_neg (by omega)]
      exact hrun

theorem foldlM_process_stale {α : Type} {W S : Nat} (hW : 0 < W) (hS : 0 < S) (hSW : S ≤ W)
    {z : List α} (b : Windower α) (hb : b.step = S) :
    ∀ (chunks : List (List α)) (st : ProcState α) (m : Nat) (post : List α),
      ProcInv W S z m st → StaleInv W S z m st → z.drop (W + m) = chunks.flatten ++ post →
      ∃ st2, chunks.foldlM b.process st = some st2 ∧
        ProcInv W S z (m + chunks.flatten.length) st2 ∧
        StaleInv W S z (m + chunks.flatten.length) st2 := by
  intro chunks
  induction chunks with
  | nil =>
    intro st m post hinv hst _
    exact ⟨st, rfl, by simpa using hinv, by simpa using hst⟩
  | cons chunk rest ih =>
    intro st m post hinv hst hz
    rw [List.flatten_cons, List.append_assoc] at hz
    obtain ⟨st1, h1, hinv1, hst1⟩ :=
      processLoop_stale hW hS hSW chunk.length st chunk m _ (Nat.le_refl _) hinv hst hz
    have hz1 : z.drop (W + (m + chunk.length)) = rest.flatten ++ post := by
      rw [← Nat.add_assoc, ← List.drop_drop, hz, List.drop_left]
    obtain ⟨st2, h2, hinv2, hst2⟩ := ih st1 _ post hinv1 hst1 hz1
    refine ⟨st2, ?_, ?_, ?_⟩
    · rw [List.foldlM_cons]
      unfold Windower.process
      rw [hb, h1]
      unfold Windower.process at h2
      rw [hb] at h2
      exact h2
    · rw [List.flatten_cons, List.length_append, ← Nat.add_assoc]
      exact hinv2
    · rw [List.flatten_cons, List.length_append, ← Nat.add_assoc]
      exact hst2

/-- When the step does not exceed the width, `Do` leaves the buffer filled
with zero samples, whatever it held before the run. -/
theorem Do_buf_zero {α : Type} [Inhabited α] {W S : Nat} (hW : 0 < W) (hS : 0 < S)
    (hSW : S ≤ W) (b : Windower α) (hlen : b.buf.length = W) (hstep : b.step = S)
    (chunks : List (List α)) :
    ∃ frames, b.Do chunks = some (⟨S, List.replicate W default⟩, frames) := by
  have hP : ((List.replicate S (default : α) ++ b.buf).take W).length = W := by
    simp only [List.length_take, List.length_append, List.length_replicate, hlen]; omega
  obtain ⟨st0, hdo0, hinv0⟩ := Do_inv hW hS b hlen hstep chunks
  -- the initial state satisfies both invariants
  have hz0 : ((List.replicate S default ++ b.buf).take W ++ chunks.flatten
      ++ List.replicate W default).drop (W + 0)
      = chunks.flatten ++ List.replicate W default := by
    rw [Nat.add_zero, List.append_assoc, List.drop_left' hP]
  have hs0 : StaleInv W S ((List.replicate S default ++ b.buf).take W ++ chunks.flatten
      ++ List.replicate W default) 0 ⟨b.buf, b.step, []⟩ := by
    intro k hk hkpos
    dsimp only at hk
    have : (k + 1) * S = k * S + S := Nat.succ_mul k S
    have hk0 : k * S = 0 := by omega
    have : k = 0 := by
      rcases Nat.mul_eq_zero.mp hk0 with h | h
      · exact h
      · omega
    omega
  have hi0 : ProcInv W S ((List.replicate S default ++ b.buf).take W ++ chunks.flatten
      ++ List.replicate W default) 0 ⟨b.buf, b.step, []⟩ := by
    refine ⟨hlen, by dsimp only; omega, 0, by simp [framesOf], by dsimp only; omega,
      by omega, ?_⟩
    dsimp only
    rw [hstep]
    have hPe : (List.replicate S (default : α) ++ b.buf).take W
        = List.replicate S default ++ b.buf.take (W - S) := by
      rw [List.take_append_eq_append_take,
        @List.take_of_length_le α W (List.replicate S (default : α))
          (by rw [List.length_replicate]; exact hSW), List.length_replicate]
    rw [hPe, Nat.zero_add, Nat.one_mul, List.append_assoc, List.append_assoc,
      List.drop_left' (List.length_replicate _ _),
      List.take_append_of_le_length (by rw [List.length_take, hlen]; omega),
      List.take_take, Nat.min_self]
  obtain ⟨st1, h1, hinv1, hst1⟩ :=
    foldlM_process_stale hW hS hSW b hstep chunks _ 0 _ hi0 hs0 hz0
  rw [Nat.zero_add] at hinv1 hst1
  have hz1 : ((List.replicate S default ++ b.buf).take W ++ chunks.flatten
      ++ List.replicate W default).drop (W + chunks.flatten.length)
      = List.replicate W default ++ [] := by
    rw [List.append_assoc, ← List.drop_drop, List.drop_left' hP, List.drop_left]
    simp
  obtain ⟨st2, h2, hinv2, hst2⟩ := processLoop_stale hW hS hSW
    (List.replicate W default).length st1 (List.replicate W default) _ _ (Nat.le_refl _)
    hinv1 hst1 hz1
  rw [List.length_replicate] at hinv2 hst2
  have hrun : b.Do chunks = some (⟨S, st2.buf⟩, st2.out) := by
    unfold Windower.Do
    rw [h1]
    simp only [Option.bind_eq_bind, Option.some_bind]
    unfold Windower.process
    rw [hlen, hstep, h2]
    rfl
  refine ⟨st2.out, ?_⟩
  rw [hrun]
  -- both parts of the final buffer are windows of the final zero samples
  obtain ⟨hl2, hpos2, k, _, hk1, hk2, hbuf2⟩ := hinv2
  have hsucc : (k + 1) * S = k * S + S := Nat.succ_mul k S
  have hkpos : 0 < k := by
    rcases Nat.eq_zero_or_pos k with h | h
    · subst h
      omega
    · exact h
  have hrem : st2.remaining ≤ W := by omega
  have hstale := hst2 k hk1 hkpos
  have hA : ((List.replicate S (default : α) ++ b.buf).take W ++ chunks.flatten).length
      = W + chunks.flatten.length := by
    rw [List.length_append, hP]
  have e1 := zero_window ((List.replicate S (default : α) ++ b.buf).take W ++ chunks.flatten)
    default W ((k + 1) * S) (W - st2.remaining) (by rw [hA]; omega) (by rw [hA]; omega)
  have e2 := zero_window ((List.replicate S (default : α) ++ b.buf).take W ++ chunks.flatten)
    default W (k * S + (W - st2.remaining)) st2.remaining (by rw [hA]; omega)
    (by rw [hA]; omega)
  rw [e1] at hbuf2
  rw [e2] at hstale
  have hsplit := List.take_append_drop (W - st2.remaining) st2.buf
  rw [hbuf2, hstale, List.append_replicate_replicate] at hsplit
  have hWW : W - st2.remaining + st2.remaining = W := by omega
  rw [hWW] at hsplit
  rw [← hsplit]

/-- C19. Windower reuse: for every W > 0, S > 0 and every two input streams a
and b, `Do` on b with the windower left by a run of `Do` on a sends the same
frames as a new windower on b; for S < W the buffer is all zeros again when
`Do` returns. -/
theorem windower_reuse {α : Type} [Inhabited α] (W S : Nat) (hW : 0 < W) (hS : 0 < S)
    (a b : List (List α)) :
    ∃ (w w1 w2 w3 : Windower α) (fa fb : List (List α)),
      NewWindower (W : Int) (S : Int) = some w ∧ w.Do a = some (w1, fa) ∧
      w1.Do b = some (w2, fb) ∧ w.Do b = some (w3, fb) ∧
      (S < W → w1.buf = List.replicate W default) := by
  by_cases hSW : S ≤ W
  · obtain ⟨fa, ha⟩ := Do_buf_zero hW hS hSW (⟨S, List.replicate W default⟩ : Windower α)
      (List.length_replicate _ _) rfl a
    obtain ⟨fb, hb⟩ := Do_buf_zero hW hS hSW (⟨S, List.replicate W default⟩ : Windower α)
      (List.length_replicate _ _) rfl b
    exact ⟨_, _, _, _, fa, fb, NewWindower_pos W S hW hS, ha, hb, hb, fun _ => rfl⟩
  · obtain ⟨buf1, hl1, ha⟩ := Do_frames hW hS (⟨S, List.replicate W default⟩ : Windower α)
      (List.length_replicate _ _) rfl a
    obtain ⟨buf2, _, hb1⟩ := Do_frames hW hS (⟨S, buf1⟩ : Windower α) hl1 rfl b
    obtain ⟨buf3, _, hb⟩ := Do_frames hW hS (⟨S, List.replicate W default⟩ : Windower α)
      (List.length_replicate _ _) rfl b
    have hpre : ∀ buf : List α, (List.replicate S (default : α) ++ buf).take W
        = List.replicate W default := by
      intro buf
      rw [List.take_append_of_le_length (by rw [List.length_replicate]; omega),
        List.take_replicate]
      congr 1
      omega
    dsimp only at hb1 hb
    rw [hpre] at hb1 hb
    exact ⟨_, _, _, _, _, _, NewWindower_pos W S hW hS, ha, hb1, hb, fun h => by omega⟩

/-- C19, instance: the first case of TestWindower cut into chunks of 3 (W = 5,
S = 2), followed by a second run on the samples 1 2 3; three runs of `Do` on
the same windower send the same frames each time. -/
theorem windower_reuse_witness :
    0 < 5 ∧ 0 < 2 ∧
    ((NewWindower 5 2 : Option (Windower Nat)).bind (fun w =>
      (w.Do [[1, 2], [3]]).bind (fun r1 => (r1.1.Do [[1], [2, 3]]).bind (fun r2 =>
        (r2.1.Do [[1, 2, 3]]).map (fun r3 => (r1.2 = r2.2 ∧ r2.2 = r3.2 : Bool)))))
      = some true) ∧
    ∃ (w w1 w2 w3 : Windower Nat) (fa fb : List (List Nat)),
      NewWindower ((5 : Nat) : Int) ((2 : Nat) : Int) = some w ∧
      w.Do [[104, 101, 108], [108, 111, 32], [116, 104, 101], [114, 101]] = some (w1, fa) ∧
      w1.Do [[1, 2], [3]] = some (w2, fb) ∧ w.Do [[1, 2], [3]] = some (w3, fb) ∧
      (2 < 5 → w1.buf = List.replicate 5 default) :=
  ⟨by decide, by decide, by decide,
    windower_reuse 5 2 (by decide) (by decide)
      [[104, 101, 108], [108, 111, 32], [116, 104, 101], [114, 101]] [[1, 2], [3]]⟩

end Utility
